import Mathlib

/-!
Verification development for the simulation core of the mini-motorways-style
routing game: the incrementally maintained road graph (`Road`), the A*
router (`Pathfinding.findPath`), destination waiting counters, the car
movement state machine, building placement, and the game-over condition.

Conventions of the embedding:
* JS string keys `"x,y"` are replaced by the cell itself (`Int × Int`);
  distinct cells have distinct keys, so this is faithful.
* JS `Map`/`Set` iterate in insertion order; they are modelled as lists in
  insertion order, with set-insert appending only when absent.
* Rendering-only state (Phaser graphics objects, the car's rotation
  bookkeeping `lastX`/`lastY`, text labels) is omitted: it is never read by
  the simulation logic.
-/

/-- A grid cell, the universal key: `(gridX, gridY)`. -/
abbrev Cell := Int × Int

/-- Manhattan distance between two cells (the game's heuristic and its
building-spacing metric). -/
def manhattan (a b : Cell) : Nat :=
  (a.1 - b.1).natAbs + (a.2 - b.2).natAbs

/-- The four cardinal directions, in the order the source lists them
(up, right, down, left). -/
def directions : List Cell := [(0, -1), (1, 0), (0, 1), (-1, 0)]

/-- The four 4-adjacent cells of `c`, in direction order. -/
def adjacentCells (c : Cell) : List Cell :=
  directions.map (fun d => (c.1 + d.1, c.2 + d.2))

/-- One road segment: an occupied cell plus its recorded neighbor keys
(JS `Set<string>` in insertion order). -/
structure RoadSeg where
  cell : Cell
  neighbors : List Cell
deriving DecidableEq, Repr

/-- The road network: the JS `Map<string, RoadSegment>` in insertion order. -/
structure Road where
  segments : List RoadSeg
deriving DecidableEq, Repr

/-- The empty network. -/
def Road.empty : Road := ⟨[]⟩

/-- JS `Set.add`: append only if absent. -/
def setAdd (l : List Cell) (c : Cell) : List Cell :=
  if c ∈ l then l else l ++ [c]

/-- `Road.hasSegment`: membership test on the key map. -/
def Road.hasSegment (r : Road) (c : Cell) : Bool :=
  r.segments.any (fun s => decide (s.cell = c))

/-- `Road.addSegment`: no-op returning `false` if occupied, otherwise create
the segment, link it both ways to every currently occupied 4-adjacent cell,
and append it to the map.  The JS code mutates each adjacent neighbor inside
the direction loop; since the four candidate keys are distinct, mapping over
the map once is the same net effect. -/
def Road.addSegment (r : Road) (c : Cell) : Road × Bool :=
  if r.hasSegment c then (r, false)
  else
    let adjOcc := (adjacentCells c).filter (fun n => r.hasSegment n)
    let segs := r.segments.map (fun s =>
      if s.cell ∈ adjOcc then { s with neighbors := setAdd s.neighbors c } else s)
    (⟨segs ++ [⟨c, adjOcc⟩]⟩, true)

/-- `Road.removeSegment`: `false` if absent; otherwise delete the key `c`
from the neighbor set of every cell listed in the removed segment's
neighbors, then delete the segment itself. -/
def Road.removeSegment (r : Road) (c : Cell) : Road × Bool :=
  match r.segments.find? (fun s => decide (s.cell = c)) with
  | none => (r, false)
  | some seg =>
    let segs := r.segments.map (fun s =>
      if s.cell ∈ seg.neighbors then
        { s with neighbors := s.neighbors.filter (fun n => decide (n ≠ c)) }
      else s)
    (⟨segs.filter (fun s => decide (s.cell ≠ c))⟩, true)

/-- `Road.getNeighbors`: the stored neighbor list of `c`, `[]` if absent. -/
def Road.getNeighbors (r : Road) (c : Cell) : List Cell :=
  match r.segments.find? (fun s => decide (s.cell = c)) with
  | none => []
  | some seg => seg.neighbors

/-- The occupied cells, in insertion order. -/
def Road.cells (r : Road) : List Cell := r.segments.map RoadSeg.cell

/-- The road-mutation API calls available to the (external) drawing input. -/
inductive RoadOp where
  | add (c : Cell)
  | remove (c : Cell)

/-- Apply one API call, discarding the boolean result. -/
def applyRoadOp (r : Road) : RoadOp → Road
  | .add c => (r.addSegment c).1
  | .remove c => (r.removeSegment c).1

/-- The network reached from empty by a sequence of add/remove calls. -/
def buildRoad (ops : List RoadOp) : Road :=
  ops.foldl applyRoadOp Road.empty

/-- Well-formedness of a road network: distinct keys, duplicate-free
neighbor sets, and the neighbor relation is exactly symmetric 4-adjacency
among occupied cells. -/
structure Road.WF (r : Road) : Prop where
  nodup : r.cells.Nodup
  nbr_nodup : ∀ s ∈ r.segments, s.neighbors.Nodup
  nbr_occ : ∀ s ∈ r.segments, ∀ n ∈ s.neighbors, r.hasSegment n = true
  nbr_adj : ∀ s ∈ r.segments, ∀ n ∈ s.neighbors, manhattan s.cell n = 1
  adj_nbr : ∀ s ∈ r.segments, ∀ v, r.hasSegment v = true →
      manhattan s.cell v = 1 → v ∈ s.neighbors

/-- The occupied 4-neighbors a fresh segment at `c` gets linked to. -/
def adjOccOf (r : Road) (c : Cell) : List Cell :=
  (adjacentCells c).filter (fun n => r.hasSegment n)

/-- Game configuration constants read by the core (src/config/GameConfig.ts;
the repo carries two config snapshots with thresholds 8 and 6 — the theorems
below do not depend on the value). -/
def MAX_CARS_PER_DESTINATION : Int := 8

/-- A destination building: grid position, color, and the waiting-cars
counter (rendering state omitted). -/
structure Destination where
  gridX : Int
  gridY : Int
  color : Nat
  waitingCars : Int
deriving DecidableEq, Repr

/-- The constructor starts the counter at zero. -/
def Destination.new (gridX gridY : Int) (color : Nat) : Destination :=
  { gridX := gridX, gridY := gridY, color := color, waitingCars := 0 }

/-- `Destination.addWaitingCar`: `this.waitingCars++`. -/
def Destination.addWaitingCar (d : Destination) : Destination :=
  { d with waitingCars := d.waitingCars + 1 }

/-- `Destination.removeWaitingCar`: `this.waitingCars = Math.max(0, this.waitingCars - 1)`. -/
def Destination.removeWaitingCar (d : Destination) : Destination :=
  { d with waitingCars := max 0 (d.waitingCars - 1) }

/-- `Destination.getWaitingCars`. -/
def Destination.getWaitingCars (d : Destination) : Int := d.waitingCars

/-- One waiting-counter event (the two mutation sites of the counter). -/
inductive WaitEvent where
  | add
  | remove
deriving DecidableEq, Repr

def applyWaitEvent (d : Destination) : WaitEvent → Destination
  | .add => d.addWaitingCar
  | .remove => d.removeWaitingCar

/-- The counter value (the whole destination) after a call sequence. -/
def runWaitEvents (d : Destination) (evs : List WaitEvent) : Destination :=
  evs.foldl applyWaitEvent d

/-- The per-event counter change the claim asserts: +1 for add, -1 for remove. -/
def waitDelta : WaitEvent → Int
  | .add => 1
  | .remove => -1

/-- `GameStateManager.checkGameOver`: true iff some destination has
`waitingCars >= MAX_CARS_PER_DESTINATION` (early-return loop). -/
def checkGameOver (destinations : List Destination) : Bool :=
  destinations.any (fun d => decide (MAX_CARS_PER_DESTINATION ≤ d.getWaitingCars))

namespace GameConfig

/-- Pixels per grid cell. -/
def GRID_SIZE : ℝ := 25

/-- Car speed in pixels per second. -/
def CAR_SPEED : ℝ := 150

end GameConfig

/-- Center of a grid cell in world space, X coordinate
(`Grid.gridToWorld`, inlined by `Car.update` in the source). -/
noncomputable def cellCenterX (c : Cell) : ℝ :=
  (c.1 : ℝ) * GameConfig.GRID_SIZE + GameConfig.GRID_SIZE / 2

/-- Center of a grid cell in world space, Y coordinate. -/
noncomputable def cellCenterY (c : Cell) : ℝ :=
  (c.2 : ℝ) * GameConfig.GRID_SIZE + GameConfig.GRID_SIZE / 2

/-- A vehicle: continuous position, color, waypoint path, current waypoint
index, speed, and the moving flag (rendering state omitted). -/
structure Car where
  x : ℝ
  y : ℝ
  color : Nat
  path : List Cell
  currentPathIndex : Nat
  speed : ℝ
  isMoving : Bool

/-- The `Car` constructor. -/
def Car.new (x y : ℝ) (color : Nat) : Car :=
  { x := x, y := y, color := color, path := [], currentPathIndex := 0,
    speed := GameConfig.CAR_SPEED, isMoving := false }

/-- `Car.setPath`: install a path, reset the index, start moving iff the
path is non-empty. -/
def Car.setPath (c : Car) (p : List Cell) : Car :=
  { c with path := p, currentPathIndex := 0, isMoving := decide (0 < p.length) }

/-- Straight-line distance from the car to its current waypoint's cell
center (the `distance` local of `Car.update`; JS out-of-range indexing is
rendered with `getD`, the second guard of `update` keeps the index in
range). -/
noncomputable def Car.waypointDistance (c : Car) : ℝ :=
  let target := c.path.getD c.currentPathIndex (0, 0)
  let dx := cellCenterX target - c.x
  let dy := cellCenterY target - c.y
  Real.sqrt (dx * dx + dy * dy)

/-- `Car.update`: returns the updated car and the "reached destination"
flag. Guard order follows the source: not-moving/empty-path early exit,
defensive index check, waypoint snap within distance 3 (advance the index,
do not move), otherwise move `speed * delta / 1000` toward the waypoint. -/
noncomputable def Car.update (c : Car) (delta : ℝ) : Car × Bool :=
  if c.isMoving = false ∨ c.path.length = 0 then (c, false)
  else if c.path.length ≤ c.currentPathIndex then
    ({ c with isMoving := false }, true)
  else if c.waypointDistance < 3 then
    let c' := { c with currentPathIndex := c.currentPathIndex + 1 }
    if c'.path.length ≤ c'.currentPathIndex then ({ c' with isMoving := false }, true)
    else (c', false)
  else
    let target := c.path.getD c.currentPathIndex (0, 0)
    let dx := cellCenterX target - c.x
    let dy := cellCenterY target - c.y
    let moveDistance := c.speed * delta / 1000
    ({ c with x := c.x + dx / c.waypointDistance * moveDistance,
              y := c.y + dy / c.waypointDistance * moveDistance }, false)

/-- `TrafficManager.update`, restricted to the car list: every live car is
updated, and cars whose update reports arrival are destroyed and spliced
out (the backwards loop preserves the order of the survivors). -/
noncomputable def trafficUpdate (cars : List Car) (delta : ℝ) : List Car :=
  (cars.map (fun car => Car.update car delta)).filterMap
    (fun p => if p.2 then none else some p.1)

/-- A car that has consumed its whole (non-empty) path while still moving:
the state the defensive check of `Car.update` targets. -/
def arrivedCar : Car :=
  { x := 0, y := 0, color := 0, path := [((0 : Int), (0 : Int))],
    currentPathIndex := 1, speed := 150, isMoving := true }

/-- SpawnManager placement state: positions of the placed houses and
destinations, in placement order. Colors and timers do not affect the
placement geometry and are omitted. -/
structure SpawnState where
  houses : List Cell
  destinations : List Cell
deriving DecidableEq, Repr

def SpawnState.empty : SpawnState := ⟨[], []⟩

/-- All placed buildings. -/
def allBuildings (st : SpawnState) : List Cell := st.houses ++ st.destinations

/-- `SpawnManager.isValidSpawnPosition`: reject road cells and any cell at
Manhattan distance < 3 from an existing house or destination (the source's
two early-return loops are the two `all` conjuncts). -/
def isValidSpawnPosition (road : Road) (st : SpawnState) (c : Cell) : Bool :=
  !road.hasSegment c &&
  st.houses.all (fun h => !decide (manhattan h c < 3)) &&
  st.destinations.all (fun d => !decide (manhattan d c < 3))

/-- `SpawnManager.findValidSpawnPosition`: up to 50 random candidate cells,
first valid one wins, `none` after 50 failures. The `Math.random` draws are
modelled by the environment-supplied candidate list `cands`. -/
def findValidSpawnPosition (road : Road) (st : SpawnState) (cands : List Cell) :
    Option Cell :=
  (cands.take 50).find? (fun c => isValidSpawnPosition road st c)

/-- One firing of the building spawn cadence: the current road snapshot and
the random candidates drawn during this firing. -/
structure SpawnOp where
  road : Road
  cands : List Cell

/-- `SpawnManager.spawnBuilding`: houses and destinations alternate via
`houses.length <= destinations.length`; on a found position the new
building is appended, otherwise the firing is skipped. -/
def spawnStep (st : SpawnState) (op : SpawnOp) : SpawnState :=
  match findValidSpawnPosition op.road st op.cands with
  | none => st
  | some c =>
    if st.houses.length ≤ st.destinations.length then
      { st with houses := st.houses ++ [c] }
    else
      { st with destinations := st.destinations ++ [c] }

/-- The placement state after a sequence of spawn firings. -/
def runSpawns (ops : List SpawnOp) : SpawnState :=
  ops.foldl spawnStep SpawnState.empty

/-- A search node (the source's `PathNode`): cell, costs, and — replacing
the mutable `parent` pointer chain — the reconstructed start-to-node path
(`reconstructPath` walks the parent chain and is the identity on this
field). -/
structure PathNode where
  cell : Cell
  g : Nat
  h : Nat
  f : Nat
  path : List Cell
deriving DecidableEq, Repr

/-- The open-set scan of the source: the first node (in insertion order)
with strictly lowest `f`. `lowestF` starts at `Infinity`, so the first node
always loads; afterwards only a strictly smaller `f` replaces it. -/
def pickLowest (l : List PathNode) : Option PathNode :=
  l.foldl (fun acc n =>
    match acc with
    | none => some n
    | some m => if n.f < m.f then some n else some m) none

/-- One iteration of the neighbor `for` loop: skip closed cells; insert an
unseen neighbor (appended at the end of the open map) with tentative cost
`current.g + 1`; when the neighbor is already open and the tentative cost is
strictly smaller, lower its `g`, recompute `f` with its stored `h`, and
repoint its parent. -/
def relax (_r : Road) (endC : Cell) (closed1 : List Cell) (curG : Nat)
    (curPath : List Cell) (os : List PathNode) (nbr : Cell) : List PathNode :=
  if nbr ∈ closed1 then os
  else
    match os.find? (fun m => decide (m.cell = nbr)) with
    | none =>
      let h := manhattan nbr endC
      os ++ [⟨nbr, curG + 1, h, (curG + 1) + h, curPath ++ [nbr]⟩]
    | some nn =>
      if curG + 1 < nn.g then
        os.map (fun m => if m.cell = nbr then
          { m with g := curG + 1, f := (curG + 1) + m.h, path := curPath ++ [nbr] }
        else m)
      else os

/-- The A* `while` loop, with explicit fuel. `findPath` supplies fuel
`|segments| + 1`; the invariant proof shows this is never exhausted, since
every iteration moves one more distinct occupied cell into the closed set. -/
def astarLoop (r : Road) (endC : Cell) : Nat → List PathNode → List Cell → List Cell
  | 0, _, _ => []
  | fuel + 1, openS, closed =>
    if openS.isEmpty then []
    else
      match pickLowest openS with
      | none => []
      | some current =>
        if current.cell = endC then current.path
        else
          let closed1 := closed ++ [current.cell]
          let open1 := openS.filter (fun m => decide (m.cell ≠ current.cell))
          let open2 := (r.getNeighbors current.cell).foldl
            (relax r endC closed1 current.g current.path) open1
          astarLoop r endC fuel open2 closed1

namespace Pathfinding

/-- `Pathfinding.findPath`: A* over the road graph. Unoccupied endpoints
give `[]`; equal occupied endpoints give `[start]`; otherwise run the loop
from the singleton open set. -/
def findPath (r : Road) (s e : Cell) : List Cell :=
  if ¬(r.hasSegment s = true) ∨ ¬(r.hasSegment e = true) then []
  else if s = e then [s]
  else
    astarLoop r e (r.segments.length + 1)
      [⟨s, 0, manhattan s e, manhattan s e, [s]⟩] []

end Pathfinding

/-- An edge of the road graph: two occupied, 4-adjacent cells. -/
def Edge (r : Road) (a b : Cell) : Prop :=
  r.hasSegment a = true ∧ r.hasSegment b = true ∧ manhattan a b = 1

/-- `p` is a path through the network from `s` to `e`: every cell occupied,
consecutive cells 4-adjacent, endpoints as given (which forces `p ≠ []`). -/
def PathBetween (r : Road) (s e : Cell) (p : List Cell) : Prop :=
  (∀ c ∈ p, r.hasSegment c = true) ∧ p.Chain' (fun a b => manhattan a b = 1) ∧
  p.head? = some s ∧ p.getLast? = some e

/-- Reachability along `n` edges of the network. -/
inductive Reaches (r : Road) : Cell → Cell → Nat → Prop where
  | refl (c : Cell) : r.hasSegment c = true → Reaches r c c 0
  | step {a b c : Cell} {n : Nat} : Edge r a b → Reaches r b c n → Reaches r a c (n + 1)

/-- Two cells lie in the same connected component of the network. -/
def reach (r : Road) (s e : Cell) : Prop := ∃ n, Reaches r s e n

/-- Graph distance (edge count of a shortest path). Defined (as 0) also for
unreachable pairs; all lemmas assume `reach`. -/
noncomputable def gdist (r : Road) (s e : Cell) : Nat := sInf {n | Reaches r s e n}

/-- The per-node invariant of the open set. -/
def NodeOK (r : Road) (s e : Cell) (closed1 : List Cell) (n : PathNode) : Prop :=
  n.cell ∉ closed1 ∧ PathBetween r s n.cell n.path ∧ n.path.length = n.g + 1 ∧
  n.h = manhattan n.cell e ∧ n.f = n.g + n.h

/-- The A* loop invariant relating the open and closed sets to the graph. -/
structure AInv (r : Road) (s e : Cell) (openS : List PathNode)
    (closed : List Cell) : Prop where
  okeys : (openS.map PathNode.cell).Nodup
  onodes : ∀ n ∈ openS, NodeOK r s e closed n
  cocc : ∀ c ∈ closed, r.hasSegment c = true
  cnodup : closed.Nodup
  creach : ∀ c ∈ closed, reach r s c
  cg : ∀ u ∈ closed, ∀ v, Edge r u v →
    v ∈ closed ∨ ∃ n ∈ openS, n.cell = v ∧ n.g ≤ gdist r s u + 1
  sstart : s ∈ closed ∨ ∃ n ∈ openS, n.cell = s ∧ n.g = 0
  enc : e ∉ closed

/-! ## Theorems -/


section RoadLemmas

theorem hasSegment_iff (r : Road) (c : Cell) :
    r.hasSegment c = true ↔ ∃ s ∈ r.segments, s.cell = c := by
  simp [Road.hasSegment, List.any_eq_true]

theorem hasSegment_of_mem {r : Road} {s : RoadSeg} (h : s ∈ r.segments) :
    r.hasSegment s.cell = true :=
  (hasSegment_iff r s.cell).2 ⟨s, h, rfl⟩

theorem manhattan_comm (a b : Cell) : manhattan a b = manhattan b a := by
  simp only [manhattan]
  omega

theorem manhattan_triangle (a b c : Cell) :
    manhattan a c ≤ manhattan a b + manhattan b c := by
  simp only [manhattan]
  omega

theorem manhattan_self (a : Cell) : manhattan a a = 0 := by
  simp [manhattan]

theorem manhattan_eq_one_iff (a b : Cell) :
    manhattan a b = 1 ↔ b ∈ adjacentCells a := by
  rcases a with ⟨ax, ay⟩
  rcases b with ⟨bx, by'⟩
  simp only [manhattan, adjacentCells, directions, List.map_cons, List.map_nil,
    List.mem_cons, List.not_mem_nil, or_false, Prod.mk.injEq]
  omega

theorem adjacentCells_nodup (c : Cell) : (adjacentCells c).Nodup := by
  rcases c with ⟨x, y⟩
  simp [adjacentCells, directions, Prod.ext_iff]

theorem hasSegment_iff_mem_cells (r : Road) (c : Cell) :
    r.hasSegment c = true ↔ c ∈ r.cells := by
  rw [hasSegment_iff]
  constructor
  · rintro ⟨s, hs, rfl⟩
    exact List.mem_map.2 ⟨s, hs, rfl⟩
  · intro h
    obtain ⟨s, hs, hcell⟩ := List.mem_map.1 h
    exact ⟨s, hs, hcell⟩

theorem mem_setAdd_self (l : List Cell) (c : Cell) : c ∈ setAdd l c := by
  by_cases h : c ∈ l <;> simp [setAdd, h]

theorem subset_setAdd (l : List Cell) (c : Cell) : ∀ x ∈ l, x ∈ setAdd l c := by
  intro x hx
  by_cases h : c ∈ l <;> simp [setAdd, h, hx]

theorem mem_setAdd_iff (l : List Cell) (c x : Cell) :
    x ∈ setAdd l c ↔ x ∈ l ∨ x = c := by
  by_cases h : c ∈ l
  · simp only [setAdd, if_pos h]
    constructor
    · exact fun hx => Or.inl hx
    · rintro (hx | rfl) <;> [exact hx; exact h]
  · simp [setAdd, h]

theorem setAdd_eq_append {l : List Cell} {c : Cell} (h : c ∉ l) :
    setAdd l c = l ++ [c] := by
  simp [setAdd, h]

end RoadLemmas

section WFPreservation

variable {r : Road} {c : Cell}

/-- The empty network is well-formed. -/
theorem wf_empty : Road.WF Road.empty := by
  constructor <;> simp [Road.empty, Road.cells]

theorem mem_adjOccOf (v : Cell) :
    v ∈ adjOccOf r c ↔ (manhattan c v = 1 ∧ r.hasSegment v = true) := by
  simp [adjOccOf, List.mem_filter, manhattan_eq_one_iff]

theorem addSegment_segments (hc : r.hasSegment c = false) :
    (r.addSegment c).1.segments =
      r.segments.map (fun s => if s.cell ∈ adjOccOf r c
        then { s with neighbors := setAdd s.neighbors c } else s)
      ++ [⟨c, adjOccOf r c⟩] := by
  simp [Road.addSegment, hc, adjOccOf]

theorem addSegment_cells (hc : r.hasSegment c = false) :
    (r.addSegment c).1.cells = r.cells ++ [c] := by
  rw [Road.cells, addSegment_segments hc]
  simp only [List.map_append, List.map_map, List.map_cons, List.map_nil]
  congr 1
  refine List.map_congr_left (fun s _ => ?_)
  by_cases h : s.cell ∈ adjOccOf r c <;> simp [Function.comp, h]

theorem hasSegment_addSegment_iff (hc : r.hasSegment c = false) (v : Cell) :
    (r.addSegment c).1.hasSegment v = true ↔ (r.hasSegment v = true ∨ v = c) := by
  rw [hasSegment_iff_mem_cells, addSegment_cells hc, List.mem_append,
    List.mem_singleton, hasSegment_iff_mem_cells]

/-- `addSegment` preserves well-formedness. -/
theorem wf_addSegment (hwf : r.WF) : (r.addSegment c).1.WF := by
  rcases hc : r.hasSegment c with _ | _
  case true => simpa [Road.addSegment, hc] using hwf
  set f : RoadSeg → RoadSeg := fun s =>
    if s.cell ∈ adjOccOf r c then { s with neighbors := setAdd s.neighbors c } else s
    with hf
  have hfcell : ∀ s, (f s).cell = s.cell := by
    intro s; by_cases h : s.cell ∈ adjOccOf r c <;> simp [hf, h]
  have hcnot : c ∉ r.cells := by
    intro h; rw [← hasSegment_iff_mem_cells] at h; simp [h] at hc
  have hnbr_sub : ∀ s, ∀ n ∈ (f s).neighbors, n ∈ s.neighbors ∨ n = c := by
    intro s n hn
    by_cases h : s.cell ∈ adjOccOf r c
    · simp only [hf, if_pos h] at hn
      exact (mem_setAdd_iff _ _ _).1 hn
    · simp only [hf, if_neg h] at hn
      exact Or.inl hn
  have hocc' : ∀ v, r.hasSegment v = true → (r.addSegment c).1.hasSegment v = true :=
    fun v hv => (hasSegment_addSegment_iff hc v).2 (Or.inl hv)
  have hcocc' : (r.addSegment c).1.hasSegment c = true :=
    (hasSegment_addSegment_iff hc c).2 (Or.inr rfl)
  have hmem' : ∀ s' ∈ (r.addSegment c).1.segments,
      (∃ s ∈ r.segments, s' = f s) ∨ s' = ⟨c, adjOccOf r c⟩ := by
    intro s' hs'
    rw [addSegment_segments hc] at hs'
    rcases List.mem_append.1 hs' with h | h
    · obtain ⟨s, hs, rfl⟩ := List.mem_map.1 h
      exact Or.inl ⟨s, hs, rfl⟩
    · exact Or.inr (List.mem_singleton.1 h)
  constructor
  · -- nodup
    rw [addSegment_cells hc]
    rw [List.nodup_append]
    refine ⟨hwf.nodup, List.nodup_singleton c, ?_⟩
    intro x hx hxc
    rw [List.mem_singleton] at hxc
    subst hxc
    exact hcnot hx
  · -- nbr_nodup
    intro s' hs'
    rcases hmem' s' hs' with ⟨s, hs, rfl⟩ | rfl
    · by_cases h : s.cell ∈ adjOccOf r c
      · have hcn : c ∉ s.neighbors := by
          intro hmem
          have := hwf.nbr_occ s hs c hmem
          simp [this] at hc
        simp only [hf, if_pos h, setAdd_eq_append hcn]
        rw [List.nodup_append]
        refine ⟨hwf.nbr_nodup s hs, List.nodup_singleton c, ?_⟩
        intro x hx hxc
        rw [List.mem_singleton] at hxc
        subst hxc
        exact hcn hx
      · simpa [hf, if_neg h] using hwf.nbr_nodup s hs
    · exact List.Nodup.filter _ (adjacentCells_nodup c)
  · -- nbr_occ
    intro s' hs' n hn
    rcases hmem' s' hs' with ⟨s, hs, rfl⟩ | rfl
    · rcases hnbr_sub s n hn with h | hnc
      · exact hocc' n (hwf.nbr_occ s hs n h)
      · rw [hnc]
        exact hcocc'
    · exact hocc' n ((mem_adjOccOf n).1 hn).2
  · -- nbr_adj
    intro s' hs' n hn
    rcases hmem' s' hs' with ⟨s, hs, rfl⟩ | rfl
    · rcases hnbr_sub s n hn with h | hnc
      · rw [hfcell]
        exact hwf.nbr_adj s hs n h
      · rw [hfcell, hnc]
        by_cases h : s.cell ∈ adjOccOf r c
        · have := ((mem_adjOccOf s.cell).1 h).1
          rwa [manhattan_comm]
        · simp only [hf, if_neg h] at hn
          rw [hnc] at hn
          have := hwf.nbr_occ s hs c hn
          simp [this] at hc
    · exact ((mem_adjOccOf n).1 hn).1
  · -- adj_nbr
    intro s' hs' v hv hadj1
    rcases hmem' s' hs' with ⟨s, hs, rfl⟩ | rfl
    · rw [hfcell] at hadj1
      rcases (hasSegment_addSegment_iff hc v).1 hv with hv' | hvc
      · have hmem := hwf.adj_nbr s hs v hv' hadj1
        by_cases h : s.cell ∈ adjOccOf r c
        · simp only [hf, if_pos h]
          exact subset_setAdd _ _ _ hmem
        · simpa [hf, if_neg h] using hmem
      · have hscell : s.cell ∈ adjOccOf r c := by
          rw [mem_adjOccOf]
          refine ⟨?_, hasSegment_of_mem hs⟩
          rw [← hvc]
          rwa [manhattan_comm]
        rw [hvc]
        simp only [hf, if_pos hscell]
        exact mem_setAdd_self _ _
    · rcases (hasSegment_addSegment_iff hc v).1 hv with hv' | hvc
      · exact (mem_adjOccOf v).2 ⟨hadj1, hv'⟩
      · rw [hvc, manhattan_self] at hadj1
        exact absurd hadj1 (by omega)

theorem find?_cell_eq_none (h : r.hasSegment c = false) :
    r.segments.find? (fun s => decide (s.cell = c)) = none := by
  rw [List.find?_eq_none]
  intro s hs
  simp only [decide_eq_true_eq]
  intro hcell
  have := hasSegment_of_mem hs
  rw [hcell] at this
  simp [this] at h

/-- `removeSegment` preserves well-formedness. -/
theorem wf_removeSegment (hwf : r.WF) : (r.removeSegment c).1.WF := by
  rcases hfind : r.segments.find? (fun s => decide (s.cell = c)) with _ | seg
  · simpa [Road.removeSegment, hfind] using hwf
  have hseg_mem : seg ∈ r.segments := List.mem_of_find?_eq_some hfind
  have hseg_cell : seg.cell = c := by
    have := List.find?_some hfind
    simpa using this
  set g : RoadSeg → RoadSeg := fun s =>
    if s.cell ∈ seg.neighbors then
      { s with neighbors := s.neighbors.filter (fun n => decide (n ≠ c)) }
    else s
    with hg
  have hgcell : ∀ s, (g s).cell = s.cell := by
    intro s; by_cases h : s.cell ∈ seg.neighbors <;> simp [hg, h]
  have hsegs : (r.removeSegment c).1.segments =
      (r.segments.map g).filter (fun s => decide (s.cell ≠ c)) := by
    simp [Road.removeSegment, hfind, hg]
  have hmem' : ∀ s' ∈ (r.removeSegment c).1.segments,
      ∃ s ∈ r.segments, s' = g s ∧ s.cell ≠ c := by
    intro s' hs'
    rw [hsegs] at hs'
    obtain ⟨hmem, hne⟩ := List.mem_filter.1 hs'
    obtain ⟨s, hs, rfl⟩ := List.mem_map.1 hmem
    simp only [hgcell, decide_eq_true_eq] at hne
    exact ⟨s, hs, rfl, hne⟩
  have hmem'' : ∀ s ∈ r.segments, s.cell ≠ c → g s ∈ (r.removeSegment c).1.segments := by
    intro s hs hne
    rw [hsegs]
    refine List.mem_filter.2 ⟨List.mem_map.2 ⟨s, hs, rfl⟩, ?_⟩
    simp [hgcell, hne]
  have hnbr_sub : ∀ s ∈ r.segments, ∀ n ∈ (g s).neighbors, n ∈ s.neighbors ∧ n ≠ c := by
    intro s hs n hn
    by_cases h : s.cell ∈ seg.neighbors
    · simp only [hg, if_pos h, List.mem_filter, decide_eq_true_eq] at hn
      exact hn
    · simp only [hg, if_neg h] at hn
      refine ⟨hn, ?_⟩
      intro hcn
      have hadjnc := hwf.nbr_adj s hs n hn
      rw [hcn] at hadjnc
      exact h (hwf.adj_nbr seg hseg_mem s.cell (hasSegment_of_mem hs)
        (by rw [hseg_cell, manhattan_comm]; exact hadjnc))
  have hocc' : ∀ v, (r.removeSegment c).1.hasSegment v = true ↔
      (r.hasSegment v = true ∧ v ≠ c) := by
    intro v
    constructor
    · intro hv
      obtain ⟨s', hs', hcell⟩ := (hasSegment_iff _ _).1 hv
      obtain ⟨s, hs, rfl, hne⟩ := hmem' s' hs'
      rw [hgcell] at hcell
      subst hcell
      exact ⟨hasSegment_of_mem hs, hne⟩
    · rintro ⟨hv, hne⟩
      obtain ⟨s, hs, rfl⟩ := (hasSegment_iff _ _).1 hv
      exact (hasSegment_iff _ _).2 ⟨g s, hmem'' s hs hne, hgcell s⟩
  constructor
  · -- nodup
    have h1 : (r.removeSegment c).1.cells.Sublist ((r.segments.map g).map RoadSeg.cell) := by
      rw [Road.cells, hsegs]
      exact List.Sublist.map _ (List.filter_sublist _)
    have h2 : (r.segments.map g).map RoadSeg.cell = r.cells := by
      rw [List.map_map, Road.cells]
      exact List.map_congr_left (fun s _ => hgcell s)
    rw [h2] at h1
    exact hwf.nodup.sublist h1
  · -- nbr_nodup
    intro s' hs'
    obtain ⟨s, hs, rfl, hne⟩ := hmem' s' hs'
    by_cases h : s.cell ∈ seg.neighbors
    · simp only [hg, if_pos h]
      exact List.Nodup.filter _ (hwf.nbr_nodup s hs)
    · simp only [hg, if_neg h]
      exact hwf.nbr_nodup s hs
  · -- nbr_occ
    intro s' hs' n hn
    obtain ⟨s, hs, rfl, hne⟩ := hmem' s' hs'
    obtain ⟨hmem, hnec⟩ := hnbr_sub s hs n hn
    exact (hocc' n).2 ⟨hwf.nbr_occ s hs n hmem, hnec⟩
  · -- nbr_adj
    intro s' hs' n hn
    obtain ⟨s, hs, rfl, hne⟩ := hmem' s' hs'
    rw [hgcell]
    exact hwf.nbr_adj s hs n (hnbr_sub s hs n hn).1
  · -- adj_nbr
    intro s' hs' v hv hadj1
    obtain ⟨s, hs, rfl, hne⟩ := hmem' s' hs'
    obtain ⟨hvocc, hvne⟩ := (hocc' v).1 hv
    rw [hgcell] at hadj1
    have hmem := hwf.adj_nbr s hs v hvocc hadj1
    by_cases h : s.cell ∈ seg.neighbors
    · simp only [hg, if_pos h]
      exact List.mem_filter.2 ⟨hmem, by simp [hvne]⟩
    · simpa [hg, if_neg h] using hmem

/-- Every network reachable through the public `addSegment`/`removeSegment`
API is well-formed. -/
theorem wf_buildRoad (ops : List RoadOp) : (buildRoad ops).WF := by
  suffices h : ∀ (l : List RoadOp) (r : Road), r.WF → (l.foldl applyRoadOp r).WF by
    exact h ops Road.empty wf_empty
  intro l
  induction l with
  | nil => exact fun r h => h
  | cons op l ih =>
    intro r hr
    rcases op with c | c
    · exact ih _ (wf_addSegment hr)
    · exact ih _ (wf_removeSegment hr)

/-- Under well-formedness, the stored neighbor lists coincide with symmetric
4-adjacency among occupied cells. -/
theorem mem_getNeighbors_iff (hwf : r.WF) (a v : Cell) :
    v ∈ r.getNeighbors a ↔
      (r.hasSegment a = true ∧ r.hasSegment v = true ∧ manhattan a v = 1) := by
  rcases hfind : r.segments.find? (fun s => decide (s.cell = a)) with _ | seg
  · simp only [Road.getNeighbors, hfind, List.not_mem_nil, false_iff]
    rintro ⟨ha, -, -⟩
    obtain ⟨s, hs, hcell⟩ := (hasSegment_iff _ _).1 ha
    have := List.find?_eq_none.1 hfind s hs
    simp [hcell] at this
  · have hseg_mem : seg ∈ r.segments := List.mem_of_find?_eq_some hfind
    have hseg_cell : seg.cell = a := by
      have := List.find?_some hfind
      simpa using this
    simp only [Road.getNeighbors, hfind]
    constructor
    · intro hv
      refine ⟨hseg_cell ▸ hasSegment_of_mem hseg_mem,
        hwf.nbr_occ seg hseg_mem v hv, ?_⟩
      rw [← hseg_cell]
      exact hwf.nbr_adj seg hseg_mem v hv
    · rintro ⟨-, hvocc, hadj⟩
      exact hwf.adj_nbr seg hseg_mem v hvocc (hseg_cell ▸ hadj)

end WFPreservation

/-- C2: after every sequence of `addSegment`/`removeSegment` operations the
neighbor relation is exactly the symmetric 4-adjacency relation among the
currently occupied cells: adjacent occupied cells list each other (each iff
the other), and no neighbor list contains a non-adjacent or unoccupied
cell. -/
theorem road_neighbor_symmetry (ops : List RoadOp) :
    (∀ a b : Cell, (buildRoad ops).hasSegment a = true →
        (buildRoad ops).hasSegment b = true → manhattan a b = 1 →
        (b ∈ (buildRoad ops).getNeighbors a ↔ a ∈ (buildRoad ops).getNeighbors b)) ∧
    (∀ a : Cell, ∀ n ∈ (buildRoad ops).getNeighbors a,
        (buildRoad ops).hasSegment n = true ∧ manhattan a n = 1) := by
  have hwf := wf_buildRoad ops
  constructor
  · intro a b ha hb hadj
    rw [mem_getNeighbors_iff hwf, mem_getNeighbors_iff hwf]
    constructor
    · rintro ⟨-, -, -⟩
      exact ⟨hb, ha, by rwa [manhattan_comm]⟩
    · rintro ⟨-, -, -⟩
      exact ⟨ha, hb, hadj⟩
  · intro a n hn
    have := (mem_getNeighbors_iff hwf a n).1 hn
    exact ⟨this.2.1, this.2.2⟩

theorem road_neighbor_symmetry_witness :
    (buildRoad [RoadOp.add (0, 0), RoadOp.add (1, 0)]).hasSegment (0, 0) = true ∧
    (buildRoad [RoadOp.add (0, 0), RoadOp.add (1, 0)]).hasSegment (1, 0) = true ∧
    manhattan (0, 0) (1, 0) = 1 ∧
    ((1, 0) ∈ (buildRoad [RoadOp.add (0, 0), RoadOp.add (1, 0)]).getNeighbors (0, 0) ↔
      (0, 0) ∈ (buildRoad [RoadOp.add (0, 0), RoadOp.add (1, 0)]).getNeighbors (1, 0)) :=
  ⟨by decide, by decide, by decide,
    (road_neighbor_symmetry [RoadOp.add (0, 0), RoadOp.add (1, 0)]).1 (0, 0) (1, 0)
      (by decide) (by decide) (by decide)⟩

section RoundTrip

variable {r : Road} {c : Cell}

theorem map_eq_self_of_mem {α} {l : List α} {f : α → α} (h : ∀ x ∈ l, f x = x) :
    l.map f = l := by
  induction l with
  | nil => rfl
  | cons a l ih =>
    rw [List.map_cons, h a (List.mem_cons_self a l),
      ih (fun x hx => h x (List.mem_cons_of_mem a hx))]

theorem find?_append_of_all_false {α} (p : α → Bool) {l₁ : List α}
    (h : ∀ x ∈ l₁, p x = false) (l₂ : List α) :
    (l₁ ++ l₂).find? p = l₂.find? p := by
  induction l₁ with
  | nil => rfl
  | cons a l ih =>
    have ha : p a = false := h a (List.mem_cons_self a l)
    simp only [List.cons_append, List.find?, ha]
    exact ih (fun x hx => h x (List.mem_cons_of_mem a hx))

/-- Adding a fresh cell and then removing it restores the exact network
state (same segment list, neighbor lists included). -/
theorem add_remove_roundtrip (hwf : r.WF) (hc : r.hasSegment c = false) :
    ((r.addSegment c).1.removeSegment c).1 = r := by
  have hcnot : c ∉ r.cells := by
    intro h; rw [← hasSegment_iff_mem_cells] at h; simp [h] at hc
  have hcnonbr : ∀ s ∈ r.segments, c ∉ s.neighbors := by
    intro s hs hmem
    have := hwf.nbr_occ s hs c hmem
    simp [this] at hc
  have hcells_ne : ∀ s ∈ r.segments, s.cell ≠ c := by
    intro s hs hcell
    exact hcnot (hcell ▸ List.mem_map.2 ⟨s, hs, rfl⟩)
  have hcadj : c ∉ adjOccOf r c := by
    intro h
    have := ((mem_adjOccOf c).1 h).1
    rw [manhattan_self] at this
    omega
  set f : RoadSeg → RoadSeg := fun s =>
    if s.cell ∈ adjOccOf r c then { s with neighbors := setAdd s.neighbors c } else s
    with hf
  have hfcell : ∀ s, (f s).cell = s.cell := by
    intro s; by_cases h : s.cell ∈ adjOccOf r c <;> simp [hf, h]
  have hsegs1 : (r.addSegment c).1.segments =
      r.segments.map f ++ [⟨c, adjOccOf r c⟩] := addSegment_segments hc
  have hfind : List.find? (fun s => decide (s.cell = c))
      (List.map f r.segments ++ [({ cell := c, neighbors := adjOccOf r c } : RoadSeg)]) =
      some { cell := c, neighbors := adjOccOf r c } := by
    rw [find?_append_of_all_false]
    · simp [List.find?]
    · intro x hx
      obtain ⟨s, hs, rfl⟩ := List.mem_map.1 hx
      simp [hfcell, hcells_ne s hs]
  have hfilter_self : ∀ s ∈ r.segments,
      s.neighbors.filter (fun n => decide (n ≠ c)) = s.neighbors := by
    intro s hs
    refine List.filter_eq_self.2 (fun n hn => ?_)
    simp only [decide_eq_true_eq]
    intro hnc
    exact hcnonbr s hs (hnc ▸ hn)
  have hgf : ∀ s ∈ r.segments,
      (if (f s).cell ∈ adjOccOf r c then
        { f s with neighbors := (f s).neighbors.filter (fun n => decide (n ≠ c)) }
      else f s) = s := by
    intro s hs
    rw [hfcell]
    by_cases h : s.cell ∈ adjOccOf r c
    · simp only [hf, if_pos h]
      rw [setAdd_eq_append (hcnonbr s hs), List.filter_append, hfilter_self s hs]
      simp
    · simp only [hf, if_neg h]
  show ((r.addSegment c).1.removeSegment c).1 = r
  simp only [Road.removeSegment, hsegs1, hfind]
  congr 1
  rw [List.map_append, List.filter_append, List.map_map]
  have hnew : List.filter (fun s => decide (s.cell ≠ c))
      (List.map (fun s =>
        if s.cell ∈ adjOccOf r c then
          { s with neighbors := s.neighbors.filter (fun n => decide (n ≠ c)) }
        else s) [({ cell := c, neighbors := adjOccOf r c } : RoadSeg)]) = [] := by
    simp [hcadj]
  rw [hnew, List.append_nil]
  have hmap : List.map ((fun s =>
      if s.cell ∈ adjOccOf r c then
        { s with neighbors := s.neighbors.filter (fun n => decide (n ≠ c)) }
      else s) ∘ f) r.segments = r.segments :=
    map_eq_self_of_mem (fun s hs => hgf s hs)
  rw [hmap]
  exact List.filter_eq_self.2 (fun s hs => by
    simp only [decide_eq_true_eq]
    exact hcells_ne s hs)

end RoundTrip

/-- C10: adding a segment at an unoccupied cell `c` and then removing it
returns the network to a state observationally equal to the original: the
same occupied cells and the same neighbor list for every cell. -/
theorem road_add_remove_observational (r : Road) (c : Cell) (hwf : r.WF)
    (hc : r.hasSegment c = false) :
    (∀ v, ((r.addSegment c).1.removeSegment c).1.hasSegment v = r.hasSegment v) ∧
    (∀ v, ((r.addSegment c).1.removeSegment c).1.getNeighbors v = r.getNeighbors v) := by
  rw [add_remove_roundtrip hwf hc]
  exact ⟨fun v => rfl, fun v => rfl⟩

theorem road_add_remove_observational_witness :
    (buildRoad [RoadOp.add (0, 0), RoadOp.add (1, 0)]).hasSegment (0, 1) = false ∧
    (∀ v, (((buildRoad [RoadOp.add (0, 0), RoadOp.add (1, 0)]).addSegment
        (0, 1)).1.removeSegment (0, 1)).1.hasSegment v =
        (buildRoad [RoadOp.add (0, 0), RoadOp.add (1, 0)]).hasSegment v) :=
  ⟨by decide,
    (road_add_remove_observational (buildRoad [RoadOp.add (0, 0), RoadOp.add (1, 0)])
      (0, 1) (wf_buildRoad _) (by decide)).1⟩

/-! ## Destinations, waiting counters, and the game-over condition -/

/-- C4 counterexample: the claim says every `removeWaitingCar` call changes
the counter by exactly -1, but on a fresh destination (counter 0) the code
clamps at 0 and the counter does not change. -/
theorem waiting_delta_counterexample :
    ¬ (∀ (gridX gridY : Int) (color : Nat) (evs : List WaitEvent) (ev : WaitEvent),
      (runWaitEvents (Destination.new gridX gridY color) (evs ++ [ev])).waitingCars =
        (runWaitEvents (Destination.new gridX gridY color) evs).waitingCars + waitDelta ev) := by
  intro h
  have := h 0 0 0 [] WaitEvent.remove
  simp [runWaitEvents, applyWaitEvent, Destination.new, Destination.removeWaitingCar,
    waitDelta] at this

theorem waitingCars_nonneg_run {d : Destination} (hd : 0 ≤ d.waitingCars)
    (evs : List WaitEvent) : 0 ≤ (runWaitEvents d evs).waitingCars := by
  induction evs generalizing d with
  | nil => exact hd
  | cons ev evs ih =>
    rcases ev with _ | _
    · exact ih (by simp only [applyWaitEvent, Destination.addWaitingCar]; omega)
    · exact ih (by simp only [applyWaitEvent, Destination.removeWaitingCar]; omega)

theorem runWaitEvents_append (d : Destination) (evs : List WaitEvent) (ev : WaitEvent) :
    runWaitEvents d (evs ++ [ev]) = applyWaitEvent (runWaitEvents d evs) ev := by
  simp [runWaitEvents, List.foldl_append]

/-- C4 amended: starting from a fresh destination, the counter never goes
negative; an `addWaitingCar` event changes it by exactly +1; a
`removeWaitingCar` event changes it by exactly -1 when the counter is
positive, and leaves it at 0 (change 0, not -1) when it is 0. -/
theorem waiting_counter_behavior (gridX gridY : Int) (color : Nat)
    (evs : List WaitEvent) :
    0 ≤ (runWaitEvents (Destination.new gridX gridY color) evs).waitingCars ∧
    (runWaitEvents (Destination.new gridX gridY color) (evs ++ [WaitEvent.add])).waitingCars =
      (runWaitEvents (Destination.new gridX gridY color) evs).waitingCars + 1 ∧
    (0 < (runWaitEvents (Destination.new gridX gridY color) evs).waitingCars →
      (runWaitEvents (Destination.new gridX gridY color) (evs ++ [WaitEvent.remove])).waitingCars =
        (runWaitEvents (Destination.new gridX gridY color) evs).waitingCars - 1) ∧
    ((runWaitEvents (Destination.new gridX gridY color) evs).waitingCars = 0 →
      (runWaitEvents (Destination.new gridX gridY color) (evs ++ [WaitEvent.remove])).waitingCars = 0) := by
  have hnn : 0 ≤ (runWaitEvents (Destination.new gridX gridY color) evs).waitingCars :=
    waitingCars_nonneg_run (by simp [Destination.new]) evs
  refine ⟨hnn, ?_, ?_, ?_⟩
  · rw [runWaitEvents_append]
    simp [applyWaitEvent, Destination.addWaitingCar]
  · intro hpos
    rw [runWaitEvents_append]
    simp only [applyWaitEvent, Destination.removeWaitingCar]
    omega
  · intro hzero
    rw [runWaitEvents_append]
    simp only [applyWaitEvent, Destination.removeWaitingCar, hzero]
    decide

theorem waiting_counter_behavior_witness :
    0 < (runWaitEvents (Destination.new 0 0 0) [WaitEvent.add]).waitingCars ∧
    (runWaitEvents (Destination.new 0 0 0) ([WaitEvent.add] ++ [WaitEvent.remove])).waitingCars =
      (runWaitEvents (Destination.new 0 0 0) [WaitEvent.add]).waitingCars - 1 :=
  ⟨by decide, (waiting_counter_behavior 0 0 0 [WaitEvent.add]).2.2.1 (by decide)⟩

/-- C5: `checkGameOver` returns true iff at least one destination's waiting
count has reached the threshold, and false whenever all are strictly below
it. -/
theorem checkGameOver_iff (destinations : List Destination) :
    (checkGameOver destinations = true ↔
      ∃ d ∈ destinations, MAX_CARS_PER_DESTINATION ≤ d.getWaitingCars) ∧
    ((∀ d ∈ destinations, d.getWaitingCars < MAX_CARS_PER_DESTINATION) →
      checkGameOver destinations = false) := by
  constructor
  · simp [checkGameOver, List.any_eq_true]
  · intro h
    rw [← Bool.not_eq_true]
    intro hany
    simp only [checkGameOver, List.any_eq_true, decide_eq_true_eq] at hany
    obtain ⟨d, hd, hle⟩ := hany
    exact absurd hle (by have := h d hd; omega)

theorem checkGameOver_iff_witness :
    (∀ d ∈ [Destination.new 0 0 0], d.getWaitingCars < MAX_CARS_PER_DESTINATION) ∧
    checkGameOver [Destination.new 0 0 0] = false :=
  ⟨by decide, (checkGameOver_iff [Destination.new 0 0 0]).2 (by decide)⟩

/-! ## Cars: waypoint movement and retirement -/

theorem car_update_not_moving (car : Car) (delta : ℝ) (h : car.isMoving = false) :
    Car.update car delta = (car, false) := by
  simp [Car.update, h]

theorem car_update_arrived_state (car : Car) (delta : ℝ) (hm : car.isMoving = true)
    (hne : car.path.length ≠ 0) (hge : car.path.length ≤ car.currentPathIndex) :
    Car.update car delta = ({ car with isMoving := false }, true) := by
  rw [Car.update, if_neg (by simp [hm, hne]), if_pos hge]

theorem car_update_snap (car : Car) (delta : ℝ) (hm : car.isMoving = true)
    (hne : car.path.length ≠ 0) (hidx : car.currentPathIndex < car.path.length)
    (hsnap : car.waypointDistance < 3) :
    Car.update car delta =
      (if car.path.length ≤ car.currentPathIndex + 1 then
        ({ car with currentPathIndex := car.currentPathIndex + 1, isMoving := false }, true)
      else ({ car with currentPathIndex := car.currentPathIndex + 1 }, false)) := by
  rw [Car.update, if_neg (by simp [hm, hne]), if_neg (by omega), if_pos hsnap]

/-- C6 claim theorem (amended): on a tick where the distance to the current
waypoint is below the snap threshold 3, the car advances `currentPathIndex`
by one and does not move at all this tick (zero displacement, not a
`speed * delta`-capped one), and completion is re-evaluated: the arrival
flag is set iff the advanced index reaches the end of the path. -/
theorem car_snap_behavior (car : Car) (delta : ℝ) (hm : car.isMoving = true)
    (hne : car.path.length ≠ 0) (hidx : car.currentPathIndex < car.path.length)
    (hsnap : car.waypointDistance < 3) :
    (Car.update car delta).1.x = car.x ∧
    (Car.update car delta).1.y = car.y ∧
    (Car.update car delta).1.currentPathIndex = car.currentPathIndex + 1 ∧
    ((Car.update car delta).2 = true ↔ car.path.length ≤ car.currentPathIndex + 1) := by
  rw [car_update_snap car delta hm hne hidx hsnap]
  by_cases h : car.path.length ≤ car.currentPathIndex + 1
  · rw [if_pos h]
    exact ⟨rfl, rfl, rfl, by simp [h]⟩
  · rw [if_neg h]
    exact ⟨rfl, rfl, rfl, by simp [h]⟩

theorem setPath_two_waypoints_snap :
    (Car.setPath (Car.new 12.5 12.5 0) [(0, 0), (4, 0)]).waypointDistance = 0 := by
  have htarget : (Car.setPath (Car.new 12.5 12.5 0) [(0, 0), (4, 0)]).path.getD
      (Car.setPath (Car.new 12.5 12.5 0) [(0, 0), (4, 0)]).currentPathIndex (0, 0) =
      ((0 : Int), (0 : Int)) := rfl
  rw [Car.waypointDistance, htarget]
  have hx : cellCenterX ((0 : Int), (0 : Int)) -
      (Car.setPath (Car.new 12.5 12.5 0) [(0, 0), (4, 0)]).x = 0 := by
    simp [cellCenterX, Car.setPath, Car.new, GameConfig.GRID_SIZE]
    norm_num
  have hy : cellCenterY ((0 : Int), (0 : Int)) -
      (Car.setPath (Car.new 12.5 12.5 0) [(0, 0), (4, 0)]).y = 0 := by
    simp [cellCenterY, Car.setPath, Car.new, GameConfig.GRID_SIZE]
    norm_num
  rw [hx, hy]
  simp

/-- C6 counterexample: the claim asserts that on a snap tick (distance to
the current waypoint below the threshold) the car still makes a nonzero
`speed * delta`-capped displacement toward the next waypoint. The code
instead advances the index and moves zero distance: a car parked exactly on
its first waypoint's center, with a farther second waypoint, positive speed
and a positive time step, ends the tick at exactly the same position. -/
theorem car_snap_no_motion_counterexample :
    ¬ (∀ (car : Car) (delta : ℝ),
        car.isMoving = true → car.path.length ≠ 0 →
        car.currentPathIndex < car.path.length →
        car.waypointDistance < 3 →
        0 < car.speed * delta / 1000 →
        car.currentPathIndex + 1 < car.path.length →
        ((Car.update car delta).1.x ≠ car.x ∨ (Car.update car delta).1.y ≠ car.y)) := by
  intro h
  have hsnap : (Car.setPath (Car.new 12.5 12.5 0) [(0, 0), (4, 0)]).waypointDistance < 3 := by
    rw [setPath_two_waypoints_snap]
    norm_num
  have hc := h (Car.setPath (Car.new 12.5 12.5 0) [(0, 0), (4, 0)]) 16 rfl
    (by decide) (by decide) hsnap
    (by simp only [Car.setPath, Car.new, GameConfig.CAR_SPEED]; norm_num)
    (by decide)
  rw [car_update_snap _ 16 rfl (by decide) (by decide) hsnap] at hc
  rw [if_neg (by decide)] at hc
  exact hc.elim (fun hx => hx rfl) (fun hy => hy rfl)

theorem car_snap_behavior_witness :
    (Car.setPath (Car.new 12.5 12.5 0) [(0, 0), (4, 0)]).waypointDistance < 3 ∧
    ((Car.update (Car.setPath (Car.new 12.5 12.5 0) [(0, 0), (4, 0)]) 16).1.x =
        (Car.setPath (Car.new 12.5 12.5 0) [(0, 0), (4, 0)]).x ∧
      (Car.update (Car.setPath (Car.new 12.5 12.5 0) [(0, 0), (4, 0)]) 16).1.y =
        (Car.setPath (Car.new 12.5 12.5 0) [(0, 0), (4, 0)]).y ∧
      (Car.update (Car.setPath (Car.new 12.5 12.5 0) [(0, 0), (4, 0)]) 16).1.currentPathIndex =
        (Car.setPath (Car.new 12.5 12.5 0) [(0, 0), (4, 0)]).currentPathIndex + 1 ∧
      ((Car.update (Car.setPath (Car.new 12.5 12.5 0) [(0, 0), (4, 0)]) 16).2 = true ↔
        (Car.setPath (Car.new 12.5 12.5 0) [(0, 0), (4, 0)]).path.length ≤
          (Car.setPath (Car.new 12.5 12.5 0) [(0, 0), (4, 0)]).currentPathIndex + 1)) := by
  have hsnap : (Car.setPath (Car.new 12.5 12.5 0) [(0, 0), (4, 0)]).waypointDistance < 3 := by
    rw [setPath_two_waypoints_snap]
    norm_num
  exact ⟨hsnap, car_snap_behavior _ 16 rfl (by decide) (by decide) hsnap⟩

/-- C7 claim theorem (amended): a moving car with a non-empty path whose
index has reached or passed the end of the path is flagged as arrived on
that very tick and spliced out by the traffic update, and the retired state
it leaves behind (moving flag cleared) is never flagged again — so such a
car neither survives the tick nor can be retired twice. A car whose path is
empty, however, is NOT treated as arrived (see the counterexample): the
early `!isMoving || path.length === 0` guard returns before the defensive
index check. -/
theorem car_arrival_retirement (car : Car) (delta delta' : ℝ)
    (hm : car.isMoving = true) (hne : car.path.length ≠ 0)
    (hge : car.path.length ≤ car.currentPathIndex) :
    (Car.update car delta).2 = true ∧
    trafficUpdate [car] delta = [] ∧
    (Car.update (Car.update car delta).1 delta').2 = false := by
  have h := car_update_arrived_state car delta hm hne hge
  refine ⟨by rw [h], ?_, ?_⟩
  · simp [trafficUpdate, h]
  · rw [h]
    rw [car_update_not_moving _ _ rfl]

/-- C7 counterexample: a live car with an empty path (so
`pathIndex >= len(path)` holds) is never flagged as arrived: its update
returns `false` and the traffic update keeps it alive, contradicting the
claim that every such car is retired within the tick. -/
theorem car_empty_path_counterexample :
    (Car.setPath (Car.new 12.5 12.5 0) []).path.length ≤
      (Car.setPath (Car.new 12.5 12.5 0) []).currentPathIndex ∧
    (Car.update (Car.setPath (Car.new 12.5 12.5 0) []) 16).2 = false ∧
    trafficUpdate [Car.setPath (Car.new 12.5 12.5 0) []] 16 =
      [Car.setPath (Car.new 12.5 12.5 0) []] := by
  have hu := car_update_not_moving (Car.setPath (Car.new 12.5 12.5 0) []) 16 rfl
  exact ⟨by decide, by rw [hu], by simp [trafficUpdate, hu]⟩

theorem car_arrival_retirement_witness :
    arrivedCar.isMoving = true ∧
    arrivedCar.path.length ≠ 0 ∧
    arrivedCar.path.length ≤ arrivedCar.currentPathIndex ∧
    (Car.update arrivedCar 16).2 = true ∧
    trafficUpdate [arrivedCar] 16 = [] :=
  ⟨rfl, by decide, by decide,
    (car_arrival_retirement arrivedCar 16 16 rfl (by decide) (by decide)).1,
    (car_arrival_retirement arrivedCar 16 16 rfl (by decide) (by decide)).2.1⟩

/-! ## Building placement (SpawnManager) -/

theorem isValid_spec {road : Road} {st : SpawnState} {c : Cell}
    (h : isValidSpawnPosition road st c = true) :
    road.hasSegment c = false ∧ ∀ b ∈ allBuildings st, 3 ≤ manhattan b c := by
  simp only [isValidSpawnPosition, Bool.and_eq_true, Bool.not_eq_true',
    List.all_eq_true, decide_eq_false_iff_not, not_lt] at h
  refine ⟨h.1.1, fun b hb => ?_⟩
  rcases List.mem_append.1 hb with hb | hb
  · exact h.1.2 b hb
  · exact h.2 b hb

theorem spacing_symm : Symmetric (fun a b : Cell => 3 ≤ manhattan a b) := by
  intro a b h
  show 3 ≤ manhattan b a
  rwa [manhattan_comm]

theorem spacing_step {st : SpawnState} (op : SpawnOp)
    (hinv : List.Pairwise (fun a b => 3 ≤ manhattan a b) (allBuildings st)) :
    List.Pairwise (fun a b => 3 ≤ manhattan a b) (allBuildings (spawnStep st op)) := by
  rcases hfind : findValidSpawnPosition op.road st op.cands with _ | c
  · simpa [spawnStep, hfind] using hinv
  have hvalid : isValidSpawnPosition op.road st c = true := List.find?_some hfind
  have hdist : ∀ b ∈ allBuildings st, 3 ≤ manhattan b c := (isValid_spec hvalid).2
  have happ : List.Pairwise (fun a b => 3 ≤ manhattan a b) (allBuildings st ++ [c]) := by
    rw [List.pairwise_append]
    refine ⟨hinv, List.pairwise_singleton _ _, fun a ha b hb => ?_⟩
    rw [List.mem_singleton] at hb
    subst hb
    exact hdist a ha
  rw [allBuildings] at happ
  simp only [spawnStep, hfind]
  by_cases hlen : st.houses.length ≤ st.destinations.length
  · rw [if_pos hlen]
    simp only [allBuildings]
    rw [List.append_assoc]
    refine (List.Perm.pairwise_iff (fun hxy => spacing_symm hxy)
      (List.Perm.append_left st.houses List.perm_append_comm)).2 ?_
    rw [← List.append_assoc]
    exact happ
  · rw [if_neg hlen]
    simp only [allBuildings]
    rw [← List.append_assoc]
    exact happ

/-- C8: after any number of successful `placeHouse`/`placeDestination`
calls (each sampling at most 50 candidates and skipping the firing when all
fail), every pair of placed buildings is at Manhattan distance at least 3,
and a successfully found position is never on a road cell of the network at
placement time (and is at distance ≥ 3 from every building existing at that
time). -/
theorem spawn_spacing_invariant (ops : List SpawnOp) :
    List.Pairwise (fun a b => 3 ≤ manhattan a b) (allBuildings (runSpawns ops)) ∧
    (∀ (road : Road) (st : SpawnState) (cands : List Cell) (c : Cell),
      findValidSpawnPosition road st cands = some c →
      road.hasSegment c = false ∧ ∀ b ∈ allBuildings st, 3 ≤ manhattan b c) := by
  constructor
  · suffices h : ∀ (l : List SpawnOp) (st : SpawnState),
        List.Pairwise (fun a b => 3 ≤ manhattan a b) (allBuildings st) →
        List.Pairwise (fun a b => 3 ≤ manhattan a b) (allBuildings (l.foldl spawnStep st)) by
      exact h ops SpawnState.empty (by simp [SpawnState.empty, allBuildings])
    intro l
    induction l with
    | nil => exact fun st h => h
    | cons op l ih => exact fun st h => ih _ (spacing_step op h)
  · intro road st cands c h
    exact isValid_spec (List.find?_some h)

theorem spawn_spacing_invariant_witness :
    findValidSpawnPosition Road.empty SpawnState.empty [(0, 0)] = some (0, 0) ∧
    (Road.empty.hasSegment (0, 0) = false ∧
      ∀ b ∈ allBuildings SpawnState.empty, 3 ≤ manhattan b (0, 0)) :=
  ⟨by decide,
    (spawn_spacing_invariant []).2 Road.empty SpawnState.empty [(0, 0)] (0, 0) (by decide)⟩

/-! ## A* pathfinding (`Pathfinding.findPath`) -/

section GraphLemmas

variable {r : Road} {a b c s e z : Cell} {n m : Nat}

theorem Reaches.src_occ (h : Reaches r a b n) : r.hasSegment a = true := by
  cases h with
  | refl _ h => exact h
  | step he _ => exact he.1

theorem Reaches.dst_occ (h : Reaches r a b n) : r.hasSegment b = true := by
  induction h with
  | refl _ h => exact h
  | step _ _ ih => exact ih

theorem Reaches.trans (h1 : Reaches r a b m) : ∀ {c n}, Reaches r b c n →
    Reaches r a c (m + n) := by
  induction h1 with
  | refl _ _ =>
    intro c n h2
    simpa using h2
  | step he _ ih =>
    intro c n h2
    rw [Nat.add_right_comm]
    exact Reaches.step he (ih h2)

theorem Reaches.snoc (h : Reaches r a b n) (he : Edge r b c) :
    Reaches r a c (n + 1) :=
  h.trans (Reaches.step he (Reaches.refl c he.2.1))

/-- Decompose a walk at its last edge. -/
theorem reaches_snoc_inv : ∀ {n s z}, Reaches r s z (n + 1) →
    ∃ u, Reaches r s u n ∧ Edge r u z := by
  intro n
  induction n with
  | zero =>
    intro s z h
    cases h with
    | step he h0 =>
      cases h0 with
      | refl _ _ => exact ⟨s, Reaches.refl s he.1, he⟩
  | succ m ih =>
    intro s z h
    cases h with
    | step he h1 =>
      obtain ⟨u, hu, hue⟩ := ih h1
      exact ⟨u, Reaches.step he hu, hue⟩

theorem manhattan_le_reaches (h : Reaches r a b n) : manhattan a b ≤ n := by
  induction h with
  | refl d _ => simp [manhattan_self]
  | step he hr ih =>
    rename_i a' b' c' n'
    have h1 := manhattan_triangle a' b' c'
    have h2 := he.2.2
    omega

theorem reaches_gdist (h : reach r s e) : Reaches r s e (gdist r s e) :=
  Nat.sInf_mem h

theorem gdist_le (h : Reaches r s e n) : gdist r s e ≤ n :=
  Nat.sInf_le h

theorem gdist_self (h : r.hasSegment c = true) : gdist r c c = 0 :=
  Nat.le_zero.1 (gdist_le (Reaches.refl c h))

theorem reach_trans (h1 : reach r s a) (h2 : reach r a z) : reach r s z := by
  obtain ⟨m, hm⟩ := h1
  obtain ⟨n, hn⟩ := h2
  exact ⟨m + n, hm.trans hn⟩

theorem gdist_triangle (h1 : reach r s a) (h2 : reach r a z) :
    gdist r s z ≤ gdist r s a + gdist r a z :=
  gdist_le ((reaches_gdist h1).trans (reaches_gdist h2))

theorem gdist_edge_le (h1 : reach r s a) (he : Edge r a b) :
    gdist r s b ≤ gdist r s a + 1 :=
  gdist_le ((reaches_gdist h1).snoc he)

theorem manhattan_le_gdist (h : reach r a b) : manhattan a b ≤ gdist r a b :=
  manhattan_le_reaches (reaches_gdist h)

/-- Heuristic consistency along an edge, in the form the A* argument uses. -/
theorem heuristic_consistent (he : Edge r a b) (e : Cell) :
    manhattan a e ≤ 1 + manhattan b e := by
  have h1 := manhattan_triangle a b e
  have h2 := he.2.2
  omega

theorem pathBetween_singleton (h : r.hasSegment s = true) :
    PathBetween r s s [s] := by
  refine ⟨?_, ?_, rfl, rfl⟩
  · intro x hx
    rw [List.mem_singleton] at hx
    subst hx
    exact h
  · simp

theorem pathBetween_ne_nil (h : PathBetween r s e p) : p ≠ [] := by
  intro hp
  rw [hp] at h
  simp [PathBetween] at h

theorem pathBetween_snoc {p : List Cell} (hp : PathBetween r s a p)
    (he : Edge r a b) : PathBetween r s b (p ++ [b]) := by
  obtain ⟨hocc, hchain, hhead, hlast⟩ := hp
  refine ⟨?_, ?_, ?_, ?_⟩
  · intro x hx
    rcases List.mem_append.1 hx with hx | hx
    · exact hocc x hx
    · rw [List.mem_singleton] at hx
      subst hx
      exact he.2.1
  · rw [List.chain'_append]
    refine ⟨hchain, List.chain'_singleton b, ?_⟩
    intro x hx y hy
    rw [hlast] at hx
    rw [Option.mem_def, Option.some_inj] at hx
    subst hx
    simp only [List.head?_cons, Option.mem_def, Option.some_inj] at hy
    subst hy
    exact he.2.2
  · rcases p with _ | ⟨x, t⟩
    · simp at hhead
    · simpa using hhead
  · simp

theorem reaches_of_pathBetween : ∀ {p : List Cell} {s e},
    PathBetween r s e p → Reaches r s e (p.length - 1) := by
  intro p
  induction p with
  | nil =>
    intro s e h
    exact absurd rfl (pathBetween_ne_nil h)
  | cons x t ih =>
    intro s e h
    obtain ⟨hocc, hchain, hhead, hlast⟩ := h
    have hxs : x = s := by simpa using hhead
    rcases t with _ | ⟨y, t'⟩
    · have hxe : x = e := by simpa using hlast
      rw [← hxs, ← hxe]
      simpa using Reaches.refl x (hocc x (List.mem_cons_self x []))
    · rw [List.chain'_cons] at hchain
      have hedge : Edge r x y :=
        ⟨hocc x (List.mem_cons_self _ _),
         hocc y (List.mem_cons_of_mem _ (List.mem_cons_self _ _)), hchain.1⟩
      have htail : PathBetween r y e (y :: t') := by
        refine ⟨fun c hc => hocc c (List.mem_cons_of_mem _ hc), hchain.2, rfl, ?_⟩
        rw [← hlast]
        simp [List.getLast?_cons_cons]
      have hstep := Reaches.step hedge (ih htail)
      rw [← hxs]
      simpa using hstep

theorem pathBetween_of_reaches (h : Reaches r s e n) :
    ∃ p, PathBetween r s e p ∧ p.length = n + 1 := by
  induction h with
  | refl d hd => exact ⟨[d], pathBetween_singleton hd, rfl⟩
  | step he _ ih =>
    obtain ⟨p, hp, hlen⟩ := ih
    obtain ⟨hocc, hchain, hhead, hlast⟩ := hp
    rcases p with _ | ⟨y, t⟩
    · simp at hhead
    refine ⟨_ :: y :: t, ⟨?_, ?_, rfl, ?_⟩, by simpa using hlen⟩
    · intro x hx
      rcases List.mem_cons.1 hx with hx | hx
      · subst hx
        exact he.1
      · exact hocc x hx
    · rw [List.chain'_cons]
      simp only [List.head?_cons, Option.some_inj] at hhead
      subst hhead
      exact ⟨he.2.2, hchain⟩
    · rw [← hlast]
      simp [List.getLast?_cons_cons]

theorem reach_of_pathBetween {p : List Cell} (h : PathBetween r s e p) :
    reach r s e :=
  ⟨p.length - 1, reaches_of_pathBetween h⟩

/-- The shortest-path length bound stated on witness paths: any network
path from `s` to `e` has at least `gdist + 1` cells. -/
theorem gdist_le_pathBetween {p : List Cell} (h : PathBetween r s e p) :
    gdist r s e + 1 ≤ p.length := by
  have h1 := gdist_le (reaches_of_pathBetween h)
  have h2 : p ≠ [] := pathBetween_ne_nil h
  have h3 : 1 ≤ p.length := List.length_pos.2 h2
  omega

end GraphLemmas

section AStarMachinery

variable {r : Road} {s e : Cell}

theorem edge_of_mem_getNeighbors (hwf : r.WF) {a v : Cell}
    (hv : v ∈ r.getNeighbors a) : Edge r a v := by
  have := (mem_getNeighbors_iff hwf a v).1 hv
  exact ⟨this.1, this.2.1, this.2.2⟩

theorem mem_getNeighbors_of_edge (hwf : r.WF) {a v : Cell} (he : Edge r a v) :
    v ∈ r.getNeighbors a :=
  (mem_getNeighbors_iff hwf a v).2 ⟨he.1, he.2.1, he.2.2⟩

theorem pickLowest_go : ∀ (l : List PathNode) (a : PathNode),
    ∃ b, l.foldl (fun acc n =>
      match acc with
      | none => some n
      | some m => if n.f < m.f then some n else some m) (some a) = some b ∧
      (b = a ∨ b ∈ l) ∧ b.f ≤ a.f ∧ ∀ m ∈ l, b.f ≤ m.f := by
  intro l
  induction l with
  | nil => exact fun a => ⟨a, rfl, Or.inl rfl, le_refl _, by simp⟩
  | cons n t ih =>
    intro a
    by_cases h : n.f < a.f
    · obtain ⟨b, hfold, hmem, hle, hall⟩ := ih n
      refine ⟨b, ?_, ?_, ?_, ?_⟩
      · simpa [h] using hfold
      · rcases hmem with rfl | hmem
        · exact Or.inr (List.mem_cons_self _ _)
        · exact Or.inr (List.mem_cons_of_mem _ hmem)
      · omega
      · intro m hm
        rcases List.mem_cons.1 hm with rfl | hm
        · exact hle
        · exact hall m hm
    · obtain ⟨b, hfold, hmem, hle, hall⟩ := ih a
      refine ⟨b, ?_, ?_, hle, ?_⟩
      · simpa [h] using hfold
      · rcases hmem with rfl | hmem
        · exact Or.inl rfl
        · exact Or.inr (List.mem_cons_of_mem _ hmem)
      · intro m hm
        rcases List.mem_cons.1 hm with rfl | hm
        · omega
        · exact hall m hm

theorem pickLowest_spec {l : List PathNode} (h : l ≠ []) :
    ∃ cur, pickLowest l = some cur ∧ cur ∈ l ∧ ∀ m ∈ l, cur.f ≤ m.f := by
  rcases l with _ | ⟨a, t⟩
  · exact absurd rfl h
  obtain ⟨b, hfold, hmem, hle, hall⟩ := pickLowest_go t a
  refine ⟨b, hfold, ?_, ?_⟩
  · rcases hmem with rfl | hmem
    · exact List.mem_cons_self _ _
    · exact List.mem_cons_of_mem _ hmem
  · intro m hm
    rcases List.mem_cons.1 hm with rfl | hm
    · exact hle
    · exact hall m hm

theorem nodeOK_g_ge_gdist {closed1 : List Cell} {n : PathNode}
    (h : NodeOK r s e closed1 n) : gdist r s n.cell ≤ n.g := by
  have h1 := gdist_le (reaches_of_pathBetween h.2.1)
  have h2 := h.2.2.1
  omega

theorem nodeOK_reach {closed1 : List Cell} {n : PathNode}
    (h : NodeOK r s e closed1 n) : reach r s n.cell :=
  reach_of_pathBetween h.2.1

theorem find?_cell_none {os : List PathNode} {v : Cell}
    (h : os.find? (fun m => decide (m.cell = v)) = none) :
    ∀ m ∈ os, m.cell ≠ v := by
  intro m hm
  have := List.find?_eq_none.1 h m hm
  simpa using this

/-- One `relax` call preserves the open-set invariants, never raises a
node's `g`, and guarantees a `g ≤ current.g + 1` entry for the processed
neighbor. -/
theorem relax_step_spec {closed1 : List Cell} {curG : Nat} {curPath : List Cell}
    {cur : Cell} (hcurPath : PathBetween r s cur curPath)
    (hcurLen : curPath.length = curG + 1) {v : Cell} (hEdge : Edge r cur v)
    (os : List PathNode) (hkeys : (os.map PathNode.cell).Nodup)
    (hok : ∀ n ∈ os, NodeOK r s e closed1 n) :
    ((relax r e closed1 curG curPath os v).map PathNode.cell).Nodup ∧
    (∀ n ∈ relax r e closed1 curG curPath os v, NodeOK r s e closed1 n) ∧
    (∀ w k, (∃ n ∈ os, n.cell = w ∧ n.g ≤ k) →
      ∃ n ∈ relax r e closed1 curG curPath os v, n.cell = w ∧ n.g ≤ k) ∧
    (v ∉ closed1 → ∃ n ∈ relax r e closed1 curG curPath os v,
      n.cell = v ∧ n.g ≤ curG + 1) := by
  by_cases hcl : v ∈ closed1
  · rw [relax, if_pos hcl]
    exact ⟨hkeys, hok, fun w k h => h, fun h => absurd hcl h⟩
  rcases hfind : os.find? (fun m => decide (m.cell = v)) with _ | nn
  · -- unseen neighbor: append a fresh node
    rw [relax, if_neg hcl, hfind]
    have hnotin : v ∉ os.map PathNode.cell := by
      intro hmem
      obtain ⟨m, hm, hcell⟩ := List.mem_map.1 hmem
      exact find?_cell_none hfind m hm hcell
    have hnewOK : NodeOK r s e closed1
        ⟨v, curG + 1, manhattan v e, (curG + 1) + manhattan v e, curPath ++ [v]⟩ := by
      refine ⟨hcl, pathBetween_snoc hcurPath hEdge, ?_, rfl, rfl⟩
      simp [hcurLen]
    refine ⟨?_, ?_, ?_, ?_⟩
    · rw [List.map_append]
      rw [List.nodup_append]
      refine ⟨hkeys, List.nodup_singleton _, ?_⟩
      intro x hx hxs
      rw [List.map_singleton, List.mem_singleton] at hxs
      subst hxs
      exact hnotin hx
    · intro n hn
      rcases List.mem_append.1 hn with hn | hn
      · exact hok n hn
      · rw [List.mem_singleton] at hn
        subst hn
        exact hnewOK
    · intro w k ⟨n, hn, hcell, hg⟩
      exact ⟨n, List.mem_append_left _ hn, hcell, hg⟩
    · intro _
      exact ⟨_, List.mem_append_right _ (List.mem_singleton_self _), rfl, le_refl _⟩
  · -- already open: update when strictly better
    have hnn_mem : nn ∈ os := List.mem_of_find?_eq_some hfind
    have hnn_cell : nn.cell = v := by
      have := List.find?_some hfind
      simpa using this
    by_cases hlt : curG + 1 < nn.g
    · rw [relax, if_neg hcl]
      simp only [hfind]
      rw [if_pos hlt]
      have hupd_cell : ∀ m : PathNode,
          ((if m.cell = v then
            { m with g := curG + 1, f := (curG + 1) + m.h, path := curPath ++ [v] }
          else m) : PathNode).cell = m.cell := by
        intro m
        by_cases h : m.cell = v <;> simp [h]
      have hkeys' : ((os.map (fun m => if m.cell = v then
          { m with g := curG + 1, f := (curG + 1) + m.h, path := curPath ++ [v] }
          else m)).map PathNode.cell).Nodup := by
        have heq : (os.map (fun m => if m.cell = v then
            { m with g := curG + 1, f := (curG + 1) + m.h, path := curPath ++ [v] }
            else m)).map PathNode.cell = os.map PathNode.cell := by
          rw [List.map_map]
          exact List.map_congr_left (fun m _ => hupd_cell m)
        rw [heq]
        exact hkeys
      refine ⟨hkeys', ?_, ?_, ?_⟩
      · intro n hn
        obtain ⟨m, hm, rfl⟩ := List.mem_map.1 hn
        by_cases h : m.cell = v
        · rw [if_pos h]
          have hmOK := hok m hm
          refine ⟨by rw [h]; exact hcl, ?_, ?_, ?_, ?_⟩
          · show PathBetween r s m.cell (curPath ++ [v])
            rw [h]
            exact pathBetween_snoc hcurPath hEdge
          · show (curPath ++ [v]).length = (curG + 1) + 1
            simp [hcurLen]
          · show m.h = manhattan m.cell e
            exact hmOK.2.2.2.1
          · rfl
        · rw [if_neg h]
          exact hok m hm
      · intro w k ⟨n, hn, hcell, hg⟩
        refine ⟨(if n.cell = v then
            { n with g := curG + 1, f := (curG + 1) + n.h, path := curPath ++ [v] }
          else n), List.mem_map.2 ⟨n, hn, rfl⟩, ?_, ?_⟩
        · rw [hupd_cell, hcell]
        · by_cases h : n.cell = v
          · rw [if_pos h]
            have : n = nn := List.inj_on_of_nodup_map hkeys hn hnn_mem
              (by rw [h, hnn_cell])
            subst this
            simp only []
            omega
          · rw [if_neg h]
            exact hg
      · intro _
        refine ⟨(if nn.cell = v then
            { nn with g := curG + 1, f := (curG + 1) + nn.h, path := curPath ++ [v] }
          else nn), List.mem_map.2 ⟨nn, hnn_mem, rfl⟩, ?_, ?_⟩
        · rw [hupd_cell, hnn_cell]
        · rw [if_pos hnn_cell]
    · rw [relax, if_neg hcl]
      simp only [hfind]
      rw [if_neg hlt]
      exact ⟨hkeys, hok, fun w k h => h,
        fun _ => ⟨nn, hnn_mem, hnn_cell, by omega⟩⟩

end AStarMachinery

section AStarInvariant

variable {r : Road} {s e : Cell}

/-- Folding `relax` over the neighbor list: invariants preserved, `g`
witnesses never lost, and every processed non-closed neighbor ends with a
`g ≤ current.g + 1` entry. -/
theorem relax_fold_spec {closed1 : List Cell} {curG : Nat} {curPath : List Cell}
    {cur : Cell} (hcurPath : PathBetween r s cur curPath)
    (hcurLen : curPath.length = curG + 1) :
    ∀ (nbrs : List Cell) (os : List PathNode),
    (∀ v ∈ nbrs, Edge r cur v) →
    (os.map PathNode.cell).Nodup →
    (∀ n ∈ os, NodeOK r s e closed1 n) →
    ((nbrs.foldl (relax r e closed1 curG curPath) os).map PathNode.cell).Nodup ∧
    (∀ n ∈ nbrs.foldl (relax r e closed1 curG curPath) os, NodeOK r s e closed1 n) ∧
    (∀ w k, (∃ n ∈ os, n.cell = w ∧ n.g ≤ k) →
      ∃ n ∈ nbrs.foldl (relax r e closed1 curG curPath) os, n.cell = w ∧ n.g ≤ k) ∧
    (∀ v ∈ nbrs, v ∉ closed1 →
      ∃ n ∈ nbrs.foldl (relax r e closed1 curG curPath) os,
        n.cell = v ∧ n.g ≤ curG + 1) := by
  intro nbrs
  induction nbrs with
  | nil =>
    intro os _ hkeys hok
    exact ⟨hkeys, hok, fun w k h => h, by simp⟩
  | cons v nbrs ih =>
    intro os hedges hkeys hok
    have hv : Edge r cur v := hedges v (List.mem_cons_self _ _)
    obtain ⟨hkeys1, hok1, hmono1, hproc1⟩ :=
      relax_step_spec hcurPath hcurLen hv os hkeys hok
    obtain ⟨hkeysF, hokF, hmonoF, hprocF⟩ :=
      ih (relax r e closed1 curG curPath os v)
        (fun w hw => hedges w (List.mem_cons_of_mem _ hw)) hkeys1 hok1
    refine ⟨hkeysF, hokF, fun w k h => hmonoF w k (hmono1 w k h), ?_⟩
    intro w hw hwcl
    rcases List.mem_cons.1 hw with rfl | hw
    · exact hmonoF w (curG + 1) (hproc1 hwcl)
    · exact hprocF w hw hwcl

/-- Frontier lemma: every reachable cell outside the closed set is
"covered" by an open node that already carries its exact distance and lies
on a shortest path to it. -/
theorem frontier_lemma {openS : List PathNode} {closed : List Cell}
    (inv : AInv r s e openS closed) :
    ∀ k z, gdist r s z = k → reach r s z → z ∉ closed →
    ∃ y ∈ openS, y.g = gdist r s y.cell ∧ reach r y.cell z ∧
      gdist r s y.cell + gdist r y.cell z = gdist r s z := by
  intro k
  induction k using Nat.strong_induction_on with
  | _ k ihk =>
    intro z hk hz hzc
    rcases k with _ | m
    · -- distance 0: z = s
      have h0 : Reaches r s z 0 := by
        rw [← hk]
        exact reaches_gdist hz
      have hzs : z = s := by cases h0 with | refl _ _ => rfl
      subst hzs
      rcases inv.sstart with hs | ⟨n, hn, hcell, hg⟩
      · exact absurd hs hzc
      · have hocc : r.hasSegment z = true := h0.src_occ
        refine ⟨n, hn, ?_, ?_, ?_⟩
        · rw [hcell, hg, gdist_self hocc]
        · rw [hcell]
          exact ⟨0, Reaches.refl z hocc⟩
        · rw [hcell, gdist_self hocc]
    · -- distance m + 1: split off the last edge of a shortest path
      have hreach : Reaches r s z (m + 1) := by
        rw [← hk]
        exact reaches_gdist hz
      obtain ⟨u, hsu, hue⟩ := reaches_snoc_inv hreach
      have hdu_le : gdist r s u ≤ m := gdist_le hsu
      have hdz_le : gdist r s z ≤ gdist r s u + 1 := gdist_edge_le ⟨m, hsu⟩ hue
      have hdu : gdist r s u = m := by omega
      by_cases huc : u ∈ closed
      · -- the predecessor is closed: its `cg` entry covers `z` exactly
        rcases inv.cg u huc z hue with hzcl | ⟨n, hn, hcell, hg⟩
        · exact absurd hzcl hzc
        · have hgd : gdist r s n.cell ≤ n.g := nodeOK_g_ge_gdist (inv.onodes n hn)
          rw [hcell] at hgd
          have hzocc : r.hasSegment z = true := hue.2.1
          refine ⟨n, hn, ?_, ?_, ?_⟩
          · rw [hcell]
            omega
          · rw [hcell]
            exact ⟨0, Reaches.refl z hzocc⟩
          · rw [hcell, gdist_self hzocc]
            omega
      · -- the predecessor is open territory: use the inductive hypothesis
        obtain ⟨y, hy, hyg, hyu, hysum⟩ := ihk m (by omega) u hdu ⟨m, hsu⟩ huc
        have hyz : reach r y.cell z :=
          reach_trans hyu ⟨1, Reaches.step hue (Reaches.refl z hue.2.1)⟩
        refine ⟨y, hy, hyg, hyz, ?_⟩
        have h1 : gdist r y.cell z ≤ gdist r y.cell u + 1 := gdist_edge_le hyu hue
        have h2 : gdist r s z ≤ gdist r s y.cell + gdist r y.cell z :=
          gdist_triangle (nodeOK_reach (inv.onodes y hy)) hyz
        omega

end AStarInvariant

theorem pathBetween_dst_occ {p : List Cell} {a : Cell}
    (h : PathBetween r s a p) : r.hasSegment a = true :=
  (reaches_of_pathBetween h).dst_occ

/-- The popped minimum-`f` node carries the exact graph distance from the
start (the heart of A* optimality under a consistent heuristic). -/
theorem pop_optimal {openS : List PathNode} {closed : List Cell}
    (inv : AInv r s e openS closed) {cur : PathNode} (hcur : cur ∈ openS)
    (hmin : ∀ m ∈ openS, cur.f ≤ m.f) : cur.g = gdist r s cur.cell := by
  have hcOK := inv.onodes cur hcur
  have hreach : reach r s cur.cell := nodeOK_reach hcOK
  have hnc : cur.cell ∉ closed := hcOK.1
  obtain ⟨y, hy, hyg, hyc, hysum⟩ :=
    frontier_lemma inv (gdist r s cur.cell) cur.cell rfl hreach hnc
  have hyOK := inv.onodes y hy
  have hman1 : manhattan y.cell e ≤ manhattan y.cell cur.cell + manhattan cur.cell e :=
    manhattan_triangle _ _ _
  have hman2 : manhattan y.cell cur.cell ≤ gdist r y.cell cur.cell :=
    manhattan_le_gdist hyc
  have hyf : y.f = y.g + y.h := hyOK.2.2.2.2
  have hyh : y.h = manhattan y.cell e := hyOK.2.2.2.1
  have hcf : cur.f = cur.g + cur.h := hcOK.2.2.2.2
  have hch : cur.h = manhattan cur.cell e := hcOK.2.2.2.1
  have hfy := hmin y hy
  have hglow : gdist r s cur.cell ≤ cur.g := nodeOK_g_ge_gdist hcOK
  omega

/-- Expanding the popped node preserves the loop invariant. -/
theorem astar_step_inv {openS : List PathNode} {closed : List Cell}
    (hwf : r.WF) (inv : AInv r s e openS closed) {cur : PathNode}
    (hcur : cur ∈ openS) (hmin : ∀ m ∈ openS, cur.f ≤ m.f)
    (hne : cur.cell ≠ e) :
    AInv r s e ((r.getNeighbors cur.cell).foldl
        (relax r e (closed ++ [cur.cell]) cur.g cur.path)
        (openS.filter (fun m => decide (m.cell ≠ cur.cell))))
      (closed ++ [cur.cell]) := by
  have hcOK := inv.onodes cur hcur
  have hgdist : cur.g = gdist r s cur.cell := pop_optimal inv hcur hmin
  have hopen1_sub : ∀ n ∈ openS.filter (fun m => decide (m.cell ≠ cur.cell)),
      n ∈ openS := fun n hn => (List.mem_filter.1 hn).1
  have hopen1_ne : ∀ n ∈ openS.filter (fun m => decide (m.cell ≠ cur.cell)),
      n.cell ≠ cur.cell := by
    intro n hn
    have := (List.mem_filter.1 hn).2
    simpa using this
  have hkeys1 : ((openS.filter (fun m => decide (m.cell ≠ cur.cell))).map
      PathNode.cell).Nodup := by
    have hsub : (openS.filter (fun m => decide (m.cell ≠ cur.cell))).Sublist openS :=
      List.filter_sublist _
    exact inv.okeys.sublist (hsub.map _)
  have hok1 : ∀ n ∈ openS.filter (fun m => decide (m.cell ≠ cur.cell)),
      NodeOK r s e (closed ++ [cur.cell]) n := by
    intro n hn
    have hOK := inv.onodes n (hopen1_sub n hn)
    refine ⟨?_, hOK.2.1, hOK.2.2.1, hOK.2.2.2.1, hOK.2.2.2.2⟩
    intro hmem
    rcases List.mem_append.1 hmem with h | h
    · exact hOK.1 h
    · rw [List.mem_singleton] at h
      exact hopen1_ne n hn h
  have hedges : ∀ v ∈ r.getNeighbors cur.cell, Edge r cur.cell v :=
    fun v hv => edge_of_mem_getNeighbors hwf hv
  obtain ⟨hkeysF, hokF, hmonoF, hprocF⟩ :=
    relax_fold_spec (s := s) (e := e) hcOK.2.1 hcOK.2.2.1
      (r.getNeighbors cur.cell) (openS.filter (fun m => decide (m.cell ≠ cur.cell)))
      hedges hkeys1 hok1
  have hmono' : ∀ n ∈ openS, n.cell ≠ cur.cell → ∀ k, n.g ≤ k →
      ∃ n' ∈ (r.getNeighbors cur.cell).foldl
        (relax r e (closed ++ [cur.cell]) cur.g cur.path)
        (openS.filter (fun m => decide (m.cell ≠ cur.cell))),
        n'.cell = n.cell ∧ n'.g ≤ k := by
    intro n hn hnecur k hk
    refine hmonoF n.cell k ⟨n, ?_, rfl, hk⟩
    exact List.mem_filter.2 ⟨hn, by simpa using hnecur⟩
  constructor
  · exact hkeysF
  · exact hokF
  · intro c hc
    rcases List.mem_append.1 hc with h | h
    · exact inv.cocc c h
    · rw [List.mem_singleton] at h
      subst h
      exact pathBetween_dst_occ hcOK.2.1
  · rw [List.nodup_append]
    refine ⟨inv.cnodup, List.nodup_singleton _, ?_⟩
    intro x hx hxc
    rw [List.mem_singleton] at hxc
    subst hxc
    exact hcOK.1 hx
  · intro c hc
    rcases List.mem_append.1 hc with h | h
    · exact inv.creach c h
    · rw [List.mem_singleton] at h
      subst h
      exact nodeOK_reach hcOK
  · intro u hu v hv
    rcases List.mem_append.1 hu with hu | hu
    · rcases inv.cg u hu v hv with hvc | ⟨n, hn, hcell, hg⟩
      · exact Or.inl (List.mem_append_left _ hvc)
      · by_cases hvcur : v = cur.cell
        · refine Or.inl (List.mem_append_right _ ?_)
          rw [hvcur]
          exact List.mem_singleton_self _
        · right
          obtain ⟨n', hn', hcell', hg'⟩ :=
            hmono' n hn (by rw [hcell]; exact hvcur) _ hg
          exact ⟨n', hn', by rw [hcell', hcell], hg'⟩
    · rw [List.mem_singleton] at hu
      subst hu
      by_cases hvc : v ∈ closed ++ [cur.cell]
      · exact Or.inl hvc
      · right
        have hvnbr : v ∈ r.getNeighbors cur.cell := mem_getNeighbors_of_edge hwf hv
        obtain ⟨n, hn, hcell, hg⟩ := hprocF v hvnbr hvc
        refine ⟨n, hn, hcell, ?_⟩
        rw [← hgdist]
        exact hg
  · rcases inv.sstart with hs | ⟨n, hn, hcell, hg⟩
    · exact Or.inl (List.mem_append_left _ hs)
    · by_cases hscur : s = cur.cell
      · refine Or.inl (List.mem_append_right _ ?_)
        rw [hscur]
        exact List.mem_singleton_self _
      · right
        obtain ⟨n', hn', hcell', hg'⟩ :=
          hmono' n hn (by rw [hcell]; exact fun h => hscur h) 0 (by omega)
        exact ⟨n', hn', by rw [hcell', hcell], by omega⟩
  · intro hmem
    rcases List.mem_append.1 hmem with h | h
    · exact inv.enc h
    · rw [List.mem_singleton] at h
      exact hne h.symm

theorem astarLoop_succ (fuel : Nat) (openS : List PathNode) (closed : List Cell) :
    astarLoop r e (fuel + 1) openS closed =
      if openS.isEmpty then []
      else
        match pickLowest openS with
        | none => []
        | some current =>
          if current.cell = e then current.path
          else
            astarLoop r e fuel
              ((r.getNeighbors current.cell).foldl
                (relax r e (closed ++ [current.cell]) current.g current.path)
                (openS.filter (fun m => decide (m.cell ≠ current.cell))))
              (closed ++ [current.cell]) := rfl

/-- Main loop correctness: under the invariant, with the goal reachable and
enough fuel, the loop returns a genuine shortest path to `e`. -/
theorem astarLoop_spec (hwf : r.WF) :
    ∀ (fuel : Nat) (openS : List PathNode) (closed : List Cell),
    AInv r s e openS closed → reach r s e →
    r.segments.length + 1 ≤ fuel + closed.length →
    PathBetween r s e (astarLoop r e fuel openS closed) ∧
    (astarLoop r e fuel openS closed).length = gdist r s e + 1 := by
  intro fuel
  induction fuel with
  | zero =>
    intro openS closed inv hre hfuel
    exfalso
    have hsub : ∀ c ∈ closed, c ∈ r.cells := fun c hc =>
      (hasSegment_iff_mem_cells r c).1 (inv.cocc c hc)
    have h1 : closed.toFinset.card = closed.length :=
      List.toFinset_card_of_nodup inv.cnodup
    have h2 : closed.toFinset ⊆ r.cells.toFinset := by
      intro x hx
      rw [List.mem_toFinset] at hx ⊢
      exact hsub x hx
    have h3 := Finset.card_le_card h2
    have h4 := r.cells.toFinset_card_le
    have h5 : r.cells.length = r.segments.length := by
      simp [Road.cells]
    omega
  | succ fuel ih =>
    intro openS closed inv hre hfuel
    have hopenne : openS ≠ [] := by
      intro hnil
      obtain ⟨y, hy, -⟩ := frontier_lemma inv (gdist r s e) e rfl hre inv.enc
      rw [hnil] at hy
      exact absurd hy (List.not_mem_nil y)
    obtain ⟨cur, hpick, hcur, hmin⟩ := pickLowest_spec hopenne
    rw [astarLoop_succ, if_neg (by simpa [List.isEmpty_iff] using hopenne)]
    simp only [hpick]
    by_cases hgoal : cur.cell = e
    · rw [if_pos hgoal]
      have hcOK := inv.onodes cur hcur
      have hg := pop_optimal inv hcur hmin
      constructor
      · rw [← hgoal]
        exact hcOK.2.1
      · rw [hcOK.2.2.1, hg, hgoal]
    · rw [if_neg hgoal]
      have inv' := astar_step_inv hwf inv hcur hmin hgoal
      refine ih _ _ inv' hre ?_
      rw [List.length_append, List.length_singleton]
      omega

/-- Soundness: without assuming the goal is reachable, a loop run from an
invariant state returns either `[]` or a genuine network path to `e`. -/
theorem astarLoop_sound (hwf : r.WF) :
    ∀ (fuel : Nat) (openS : List PathNode) (closed : List Cell),
    AInv r s e openS closed →
    astarLoop r e fuel openS closed = [] ∨
      PathBetween r s e (astarLoop r e fuel openS closed) := by
  intro fuel
  induction fuel with
  | zero => intro openS closed _; exact Or.inl rfl
  | succ fuel ih =>
    intro openS closed inv
    by_cases hempty : openS.isEmpty
    · rw [astarLoop_succ, if_pos hempty]
      exact Or.inl rfl
    have hopenne : openS ≠ [] := by
      intro hnil
      rw [hnil] at hempty
      exact hempty rfl
    obtain ⟨cur, hpick, hcur, hmin⟩ := pickLowest_spec hopenne
    rw [astarLoop_succ, if_neg hempty]
    simp only [hpick]
    by_cases hgoal : cur.cell = e
    · rw [if_pos hgoal]
      right
      rw [← hgoal]
      exact (inv.onodes cur hcur).2.1
    · rw [if_neg hgoal]
      exact ih _ _ (astar_step_inv hwf inv hcur hmin hgoal)

/-- The invariant holds for the initial search state. -/
theorem initial_inv (hs : r.hasSegment s = true) :
    AInv r s e [⟨s, 0, manhattan s e, manhattan s e, [s]⟩] [] := by
  constructor
  · simp
  · intro n hn
    rw [List.mem_singleton] at hn
    subst hn
    exact ⟨by simp, pathBetween_singleton hs, by simp, rfl, by simp⟩
  · simp
  · simp
  · simp
  · simp
  · exact Or.inr ⟨_, List.mem_singleton_self _, rfl, rfl⟩
  · simp

/-- C1: for every well-formed road network and occupied cells `start` and
`end` in the same connected component, `findPath` returns a non-empty path
from `start` to `end` along 4-adjacent occupied cells whose edge count is
minimal: no other path through the network between the same endpoints has
fewer edges. (Non-emptiness and the step conditions are what `PathBetween`
says; minimal edge count is minimal cell count among such paths.)
Well-formedness holds for every network reachable through the
`addSegment`/`removeSegment` API (`wf_buildRoad`). -/
theorem findPath_shortest (r : Road) (s e : Cell) (hwf : r.WF)
    (hs : r.hasSegment s = true) (he : r.hasSegment e = true)
    (hconn : ∃ p, PathBetween r s e p) :
    PathBetween r s e (Pathfinding.findPath r s e) ∧
    ∀ q, PathBetween r s e q →
      (Pathfinding.findPath r s e).length ≤ q.length := by
  by_cases hse : s = e
  · subst hse
    rw [Pathfinding.findPath, if_neg (by simp [hs]), if_pos rfl]
    refine ⟨pathBetween_singleton hs, ?_⟩
    intro q hq
    simpa using List.length_pos.2 (pathBetween_ne_nil hq)
  · rw [Pathfinding.findPath, if_neg (by simp [hs, he]), if_neg hse]
    obtain ⟨p0, hp0⟩ := hconn
    have hre : reach r s e := reach_of_pathBetween hp0
    have hspec := astarLoop_spec hwf (r.segments.length + 1)
      [⟨s, 0, manhattan s e, manhattan s e, [s]⟩] [] (initial_inv hs) hre (by simp)
    refine ⟨hspec.1, ?_⟩
    intro q hq
    rw [hspec.2]
    exact gdist_le_pathBetween hq

theorem findPath_shortest_witness :
    (buildRoad [RoadOp.add (0, 0), RoadOp.add (1, 0)]).hasSegment (0, 0) = true ∧
    (buildRoad [RoadOp.add (0, 0), RoadOp.add (1, 0)]).hasSegment (1, 0) = true ∧
    PathBetween (buildRoad [RoadOp.add (0, 0), RoadOp.add (1, 0)]) (0, 0) (1, 0)
      (Pathfinding.findPath (buildRoad [RoadOp.add (0, 0), RoadOp.add (1, 0)])
        (0, 0) (1, 0)) ∧
    (Pathfinding.findPath (buildRoad [RoadOp.add (0, 0), RoadOp.add (1, 0)])
        (0, 0) (1, 0)).length ≤ 2 :=
  ⟨by decide, by decide,
    (findPath_shortest (buildRoad [RoadOp.add (0, 0), RoadOp.add (1, 0)]) (0, 0) (1, 0)
      (wf_buildRoad _) (by decide) (by decide)
      ⟨[(0, 0), (1, 0)], ⟨by decide, List.chain'_pair.2 (by decide), rfl, rfl⟩⟩).1,
    (findPath_shortest (buildRoad [RoadOp.add (0, 0), RoadOp.add (1, 0)]) (0, 0) (1, 0)
      (wf_buildRoad _) (by decide) (by decide)
      ⟨[(0, 0), (1, 0)], ⟨by decide, List.chain'_pair.2 (by decide), rfl, rfl⟩⟩).2
      [(0, 0), (1, 0)] ⟨by decide, List.chain'_pair.2 (by decide), rfl, rfl⟩⟩

/-- C3: `findPath` with an unoccupied endpoint returns `[]`; with equal
occupied endpoints it returns `[start]`; with occupied endpoints in
disconnected components it returns `[]`. The embedding is a total function,
so no input raises an error. -/
theorem findPath_degenerate (r : Road) (s e : Cell) :
    (¬(r.hasSegment s = true ∧ r.hasSegment e = true) →
      Pathfinding.findPath r s e = []) ∧
    (r.hasSegment s = true → s = e → Pathfinding.findPath r s e = [s]) ∧
    (r.WF → r.hasSegment s = true → r.hasSegment e = true →
      (¬ ∃ p, PathBetween r s e p) → Pathfinding.findPath r s e = []) := by
  refine ⟨?_, ?_, ?_⟩
  · intro h
    rw [Pathfinding.findPath, if_pos]
    push_neg at h
    by_cases hs : r.hasSegment s = true
    · exact Or.inr (h hs)
    · exact Or.inl hs
  · intro hs hse
    subst hse
    rw [Pathfinding.findPath, if_neg (by simp [hs]), if_pos rfl]
  · intro hwf hs he hnp
    by_cases hse : s = e
    · exact absurd ⟨[s], by rw [hse]; exact pathBetween_singleton (hse ▸ hs)⟩ hnp
    rw [Pathfinding.findPath, if_neg (by simp [hs, he]), if_neg hse]
    rcases astarLoop_sound hwf (r.segments.length + 1)
      [⟨s, 0, manhattan s e, manhattan s e, [s]⟩] [] (initial_inv hs) with h | h
    · exact h
    · exact absurd ⟨_, h⟩ hnp

theorem reaches_far_aux : ∀ (n : Nat) (z : Cell),
    Reaches (buildRoad [RoadOp.add (0, 0), RoadOp.add (5, 5)]) (0, 0) z n →
    z = (0, 0) := by
  intro n
  induction n with
  | zero =>
    intro z h
    cases h with
    | refl _ _ => rfl
  | succ m ih =>
    intro z h
    cases h with
    | step he h2 =>
      exfalso
      obtain ⟨-, hb, hadj⟩ := he
      rw [hasSegment_iff] at hb
      obtain ⟨seg, hseg, hcell⟩ := hb
      have hsegs : (buildRoad [RoadOp.add (0, 0), RoadOp.add (5, 5)]).segments =
          [⟨(0, 0), []⟩, ⟨(5, 5), []⟩] := by decide
      rw [hsegs] at hseg
      subst hcell
      rcases List.mem_cons.1 hseg with rfl | hseg
      · exact absurd hadj (by decide)
      · rw [List.mem_singleton] at hseg
        subst hseg
        exact absurd hadj (by decide)

theorem findPath_degenerate_witness :
    (buildRoad [RoadOp.add (0, 0), RoadOp.add (5, 5)]).hasSegment (0, 0) = true ∧
    (buildRoad [RoadOp.add (0, 0), RoadOp.add (5, 5)]).hasSegment (5, 5) = true ∧
    Pathfinding.findPath (buildRoad [RoadOp.add (0, 0), RoadOp.add (5, 5)])
      (0, 0) (5, 5) = [] := by
  have hnp : ¬ ∃ p, PathBetween (buildRoad [RoadOp.add (0, 0), RoadOp.add (5, 5)])
      (0, 0) (5, 5) p := by
    rintro ⟨p, hp⟩
    have := reaches_far_aux _ _ (reaches_of_pathBetween hp)
    exact absurd this (by decide)
  exact ⟨by decide, by decide,
    (findPath_degenerate (buildRoad [RoadOp.add (0, 0), RoadOp.add (5, 5)])
      (0, 0) (5, 5)).2.2 (wf_buildRoad _) (by decide) (by decide) hnp⟩

/-- C9: `findPath` is deterministic. In the embedding the JS `Map`/`Set`
iteration orders (insertion order) are part of the `Road` value built from
the construction history, and the search is a pure function of that value
and the endpoints, so equal histories and equal endpoints give identical
paths — including identical tie-breaks among equal-`f` frontier nodes. -/
theorem findPath_deterministic (ops : List RoadOp) (s e : Cell) :
    Pathfinding.findPath (buildRoad ops) s e =
      Pathfinding.findPath (buildRoad ops) s e := rfl

